import Mathlib

/-!
Verification development for the smz-mandelbrot repository.

The repository's precision-adaptive Mandelbrot grid engine is embedded
shallowly over Lean rationals:

- `PyCommon` embeds `src/py_common/mpfr_base32.py` and
  `src/py_common/base_convert.py`.  These Python modules delegate to the
  gmpy2/MPFR library; the MPFR primitives (round-to-nearest at a binary
  precision, `mpfr_set_str` numeral reading, `mpfr_get_str` digit
  generation) are not source of this repository and are modelled from the
  spec, as marked on each definition.
- `PyBoxCal` embeds `src/py_box_cal/mpfr_base32.py` and
  `src/py_box_cal/base_convert.py` (pure `Decimal` arithmetic).  The
  `getcontext().prec = 100` decimal context is modelled by exact rational
  arithmetic; the two coincide whenever intermediate values need fewer
  than 100 significant decimal digits, which covers every concrete input
  used below.
- `BoxCalc` embeds `src/py_box_cal/box_calculator.py` (precision
  estimator, grid generator, worker response parsing, pool dispatch
  behaviour, and the adaptive convergence loop).  Machine floats that the
  Python code round-trips through (`float(...)`, `math.log2`) are modelled
  by exact rational/integer arithmetic.

Python exceptions are modelled by `Option` (`none` = the call raised).
-/

namespace Mandel

/-! ### Base-32 digit and character primitives -/

/-- Character for a base-32 digit value, as produced by MPFR and by the
`py_box_cal` encoder: `0`-`9` then `a`-`v`. -/
def charOfDigit (d : ℕ) : Char :=
  if d < 10 then Char.ofNat (48 + d) else Char.ofNat (87 + d)

/-- Value of a base-32 digit character (case-insensitive, as accepted by
MPFR for bases up to 36): `0`-`9`, `a`-`v`, `A`-`V`. -/
def digitVal? (c : Char) : Option ℕ :=
  if '0' ≤ c ∧ c ≤ '9' then some (c.toNat - 48)
  else if 'a' ≤ c ∧ c ≤ 'v' then some (c.toNat - 87)
  else if 'A' ≤ c ∧ c ≤ 'V' then some (c.toNat - 55)
  else none

/-- Test for a base-32 digit character. -/
def isDigit32 (c : Char) : Bool := (digitVal? c).isSome

/-- Test for a decimal digit character. -/
def isDigit10 (c : Char) : Bool := '0' ≤ c ∧ c ≤ '9'

/-- Value of a most-significant-first base-32 digit list, as a natural
number. -/
def intVal : List ℕ → ℕ
  | [] => 0
  | d :: ds => d * 32 ^ ds.length + intVal ds

/-- Value of a base-32 digit list read as a fraction `0.d1 d2 ...`. -/
def fracVal : List ℕ → ℚ
  | [] => 0
  | d :: ds => ((d : ℚ) + fracVal ds) / 32

/-- Fixed-width big-endian base-32 digits of a natural number. -/
def digitsBE : ℕ → ℕ → List ℕ
  | 0, _ => []
  | n + 1, v => digitsBE n (v / 32) ++ [v % 32]

/-- Digit list with its trailing zeros removed (the common combinatorial
core of both encoders' trailing-zero stripping). -/
def trimZeros (ds : List ℕ) : List ℕ :=
  (ds.reverse.dropWhile (fun d => d = 0)).reverse

/-! ### Kernel-computable integer logarithms

Fuel-bounded versions of the floor and ceiling base-`b` logarithm, used
by the modelled MPFR primitives so that concrete instances evaluate
inside the kernel. -/

/-- Floor logarithm with explicit fuel: number of divisions by `b` until
the value drops below `b`. -/
def natLogAux (b : ℕ) : ℕ → ℕ → ℕ
  | 0, _ => 0
  | fuel + 1, n => if b ≤ n then natLogAux b fuel (n / b) + 1 else 0

/-- Floor logarithm `⌊log_b n⌋` for `2 ≤ b`, `1 ≤ n` (0 otherwise). -/
def natLogB (b n : ℕ) : ℕ := natLogAux b n n

/-- Ceiling logarithm with explicit fuel. -/
def natClogAux (b : ℕ) : ℕ → ℕ → ℕ
  | 0, _ => 0
  | fuel + 1, n => if 1 < n then natClogAux b fuel ((n + b - 1) / b) + 1 else 0

/-- Ceiling logarithm `⌈log_b n⌉` for `2 ≤ b`, `1 ≤ n` (0 otherwise). -/
def natClogB (b n : ℕ) : ℕ := natClogAux b n n

/-- Floor logarithm `⌊log_b q⌋` of a positive rational (the value MPFR
uses to locate the leading digit), kernel-computable. -/
def ratLog (b : ℕ) (q : ℚ) : ℤ :=
  if 1 ≤ q then (natLogB b (⌊q⌋).toNat : ℤ)
  else -(natClogB b (⌈1 / q⌉).toNat : ℤ)

/-- Ceiling logarithm `⌈log_b q⌉` of a positive rational,
kernel-computable. -/
def ratClog (b : ℕ) (q : ℚ) : ℤ :=
  if 1 ≤ q then (natClogB b (⌈q⌉).toNat : ℤ)
  else -(natLogB b (⌊1 / q⌋).toNat : ℤ)

end Mandel

namespace Mandel

/-! ### Modelled MPFR primitives -/

/-- Modelled from the spec: MPFR round-to-nearest to a binary precision of
`P` significand bits (the rounding applied by `gmpy2.context(precision=P)`
when a value enters an mpfr object).  Missing from `src/`: gmpy2/MPFR is
an external library.  Ties are resolved upward here where MPFR rounds to
even; no statement below depends on an exact tie. -/
def roundPrec (P : ℕ) (q : ℚ) : ℚ :=
  if q = 0 then 0
  else
    let k : ℤ := ratLog 2 |q|
    let s : ℤ := k - ((P : ℤ) - 1)
    (round (q / (2 : ℚ) ^ s) : ℤ) * (2 : ℚ) ^ s

/-- Modelled from the spec: MPFR digit generation `mpfr_get_str` in base
32 with a requested number `n` of digits, as exposed by gmpy2's
`value.digits(32, n)` for a nonzero value.  Missing from `src/`:
gmpy2/MPFR is an external library.  It returns the digit list (`n`
most-significant-first digits, leading digit nonzero) and the exponent
`E` such that the printed value is `0.d1...dn * 32 ^ E`, with the digit
string rounded to nearest. -/
def mpfrGetStr32 (v : ℚ) (n : ℕ) : List ℕ × ℤ :=
  let E : ℤ := ratLog 32 |v| + 1
  let D : ℤ := round (|v| * (32 : ℚ) ^ ((n : ℤ) - E))
  if D.toNat = 32 ^ n then
    (1 :: List.replicate (n - 1) 0, E + 1)
  else
    (digitsBE n D.toNat, E)

/-! ### Numeral text grammar (modelled MPFR string reading) -/

/-- Longest prefix of base-32 digit characters, returned as digit values
together with the unconsumed remainder. -/
def lexDigits : List Char → List ℕ × List Char
  | [] => ([], [])
  | c :: cs =>
    match digitVal? c with
    | some d =>
      let r := lexDigits cs
      (d :: r.1, r.2)
    | none => ([], c :: cs)

/-- Decimal digits of an exponent, returned as a value together with a
flag recording that at least one digit was present and all input was
consumed. -/
def parseSignedDec (s : List Char) : Option ℤ :=
  let core : List Char → Option ℤ := fun ds =>
    if ds = [] then none
    else if ds.all (fun c => isDigit10 c) then
      some (ds.foldl (fun a c => a * 10 + ((c.toNat : ℤ) - 48)) 0)
    else none
  match s with
  | '-' :: t => (core t).map (fun v => -v)
  | '+' :: t => core t
  | t => core t

/-- Python builtin `int(text)` on a plain signed decimal numeral (`none`
= `ValueError`).  Surrounding whitespace and digit-group underscores,
which Python also accepts, do not occur in this code base and are not
modelled. -/
def pyInt (s : List Char) : Option ℤ := parseSignedDec s

/-- Modelled from the spec: the numeral grammar accepted by MPFR's
`mpfr_set_str` in base 32 (optional sign, base-32 digits with at most one
radix point, optional `@`-marked decimal exponent).  Missing from `src/`:
gmpy2/MPFR is an external library.  Returns the components
(negative?, integer digits, fraction digits, exponent). -/
def mpfrLex (s : List Char) : Option (Bool × List ℕ × List ℕ × ℤ) :=
  let go : List Char → Option (List ℕ × List ℕ × ℤ) := fun s1 =>
    let r1 := lexDigits s1
    let intD := r1.1
    match r1.2 with
    | [] => if intD = [] then none else some (intD, [], 0)
    | '.' :: r2 =>
      let rf := lexDigits r2
      let fracD := rf.1
      if intD = [] ∧ fracD = [] then none
      else
        match rf.2 with
        | [] => some (intD, fracD, 0)
        | '@' :: r4 => (parseSignedDec r4).map (fun e => (intD, fracD, e))
        | _ => none
    | '@' :: r4 =>
      if intD = [] then none
      else (parseSignedDec r4).map (fun e => (intD, [], e))
    | _ => none
  match s with
  | '-' :: t => (go t).map (fun r => (true, r))
  | '+' :: t => (go t).map (fun r => (false, r))
  | t => (go t).map (fun r => (false, r))

/-- Exact rational value of lexed numeral components. -/
def numeralVal (neg : Bool) (intD fracD : List ℕ) (e : ℤ) : ℚ :=
  (if neg then -1 else 1) *
    ((intVal intD : ℚ) + fracVal fracD) * (32 : ℚ) ^ e

/-- Modelled from the spec: the exact value denoted by a base-32 numeral
string under MPFR's `mpfr_set_str` grammar, or `none` if the string is
rejected. -/
def mpfrStrValue (s : List Char) : Option ℚ :=
  (mpfrLex s).map (fun r => numeralVal r.1 r.2.1 r.2.2.1 r.2.2.2)

/-! ### Decimal text input -/

/-- Longest prefix of decimal digit characters with the remainder. -/
def lexDec : List Char → List ℕ × List Char
  | [] => ([], [])
  | c :: cs =>
    if isDigit10 c then
      let r := lexDec cs
      ((c.toNat - 48) :: r.1, r.2)
    else ([], c :: cs)

/-- Value of a most-significant-first decimal digit list. -/
def decIntVal (ds : List ℕ) : ℕ := ds.foldl (fun a d => a * 10 + d) 0

/-- Value of a decimal digit list read as a fraction `0.d1 d2 ...`. -/
def decFracVal : List ℕ → ℚ
  | [] => 0
  | d :: ds => ((d : ℚ) + decFracVal ds) / 10

/-- Modelled from the spec: the exact value of a base-10 numeral string
(optional sign, digits with at most one point, optional `e`-exponent) as
read both by Python `Decimal(...)` and by gmpy2 `mpfr(...)`.  Missing
from `src/`: the decimal readers live in CPython and gmpy2. -/
def parseDecimal (s : List Char) : Option ℚ :=
  let go : List Char → Option ℚ := fun s1 =>
    let r1 := lexDec s1
    let intD := r1.1
    let afterFrac : List ℕ × List Char :=
      match r1.2 with
      | '.' :: r2 =>
        let rf := lexDec r2
        (rf.1, rf.2)
      | r => ([], r)
    let fracD := afterFrac.1
    if intD = [] ∧ fracD = [] then none
    else
      let mant : ℚ := (decIntVal intD : ℚ) + decFracVal fracD
      match afterFrac.2 with
      | [] => some mant
      | 'e' :: r4 => (parseSignedDec r4).map (fun e => mant * (10 : ℚ) ^ e)
      | 'E' :: r4 => (parseSignedDec r4).map (fun e => mant * (10 : ℚ) ^ e)
      | _ => none
  match s with
  | '-' :: t => (go t).map (fun q => -q)
  | '+' :: t => go t
  | t => go t

/-- Mantissa digit-count formula shared by both converters
(`ceil(precision_bits * log 2 / log 32) + 1`, and `log 2 / log 32` is
exactly `1 / 5`): `ceil(P / 5) + 1`.  The Python evaluates the ratio in
machine floats; the exact value is used here. -/
def precDigits (P : ℕ) : ℕ := (P + 4) / 5 + 1

/-! ### py_common/mpfr_base32.py -/

namespace PyCommon

/-- Python `s.rstrip(c)` for a single character: remove every trailing
occurrence of `c`. -/
def rstripChar (s : List Char) (c : Char) : List Char :=
  (s.reverse.dropWhile (fun x => x = c)).reverse

/-- Embedding of `remove_trailing_zeros` (py_common/mpfr_base32.py lines
13-31): on a string containing a radix point, strip trailing zeros and
then a trailing point. -/
def remove_trailing_zeros (s : List Char) : List Char :=
  if '.' ∈ s then rstripChar (rstripChar s '0') '.' else s

/-- Embedding of `parse_mpfr_base32` (py_common/mpfr_base32.py lines
34-59): read the string with MPFR at `precision` bits; on a parse
failure return the documented fallback for `"0"` and otherwise raise
(`none`). -/
def parse_mpfr_base32 (s : String) (precision : ℕ) : Option ℚ :=
  match mpfrStrValue s.toList with
  | some q => some (roundPrec precision q)
  | none => if s = "0" then some 0 else none

/-- Radix-point layout step of `mpfr_to_base32` (py_common/mpfr_base32.py
lines 94-109): place the mantissa digits around the radix point
according to the exponent, padding with zeros on whichever side needs
them. -/
def layoutB32 (mantissa : List Char) (exp : ℤ) : List Char :=
  if 0 < exp then
    if (mantissa.length : ℤ) ≤ exp then
      mantissa ++ List.replicate (exp - mantissa.length).toNat '0'
    else
      mantissa.take exp.toNat ++ '.' :: mantissa.drop exp.toNat
  else if exp = 0 then '0' :: '.' :: mantissa
  else '0' :: '.' :: (List.replicate (-exp).toNat '0' ++ mantissa)

/-- Embedding of `mpfr_to_base32` (py_common/mpfr_base32.py lines
62-113): zero prints as `"0"`; otherwise take the `precision_digits`
base-32 digits and exponent from MPFR, lay the digits out in radix-point
notation, attach the sign and strip trailing zeros. -/
def mpfr_to_base32 (value : ℚ) (precision_digits : ℕ) : List Char :=
  if value = 0 then ['0']
  else
    let r := mpfrGetStr32 value precision_digits
    let sign : List Char := if value < 0 then ['-'] else []
    remove_trailing_zeros (sign ++ layoutB32 (r.1.map charOfDigit) r.2)

/-- Embedding of `decimal_to_mpfr_base32` (py_common/mpfr_base32.py lines
116-139) on an mpfr argument: an existing mpfr value is used as is
(`value = d`) and printed with `precDigits` base-32 digits. -/
def decimal_to_mpfr_base32 (v : ℚ) (precision_bits : ℕ) : List Char :=
  mpfr_to_base32 v (precDigits precision_bits)

/-- Embedding of `decimal_to_mpfr_base32` (py_common/mpfr_base32.py lines
116-139) on a decimal string argument: `mpfr(str(d))` reads the decimal
text and rounds it to `precision_bits` bits, and the result is printed
with `precDigits` base-32 digits.  A read failure raises (`none`). -/
def decimal_to_mpfr_base32_ofStr (d : String) (precision_bits : ℕ) :
    Option (List Char) :=
  match parseDecimal d.toList with
  | some q => some (mpfr_to_base32 (roundPrec precision_bits q)
      (precDigits precision_bits))
  | none => none

/-- Embedding of `convert_10_to_32` (py_common/base_convert.py lines
36-52): delegate to `decimal_to_mpfr_base32` on the base-10 string,
re-raising any failure as `ValueError` (`none`). -/
def convert_10_to_32 (base10_str : String) (precision_bits : ℕ) :
    Option (List Char) :=
  decimal_to_mpfr_base32_ofStr base10_str precision_bits

end PyCommon

/-! ### py_box_cal/mpfr_base32.py

Pure-`Decimal` codec.  `getcontext().prec = 100` is modelled by exact
rational arithmetic (identical whenever fewer than 100 significant
decimal digits arise, which holds for every concrete input below). -/

namespace PyBoxCal

/-- Python `s.split(sep)` for a one-character separator. -/
def splitOnChar (c : Char) : List Char → List (List Char)
  | [] => [[]]
  | x :: xs =>
    match splitOnChar c xs with
    | [] => [[]]
    | h :: t => if x = c then [] :: h :: t else (x :: h) :: t

/-- Per-character digit value of `parse_mpfr_base32` (py_box_cal lines
48-62): a decimal digit keeps its value, and any other character is
pushed through `ord(lower(c)) - ord(a-char) + 10` without validation. -/
def digitValPy (c : Char) : ℤ :=
  if isDigit10 c then (c.toNat : ℤ) - 48
  else (c.toLower.toNat : ℤ) - 97 + 10

/-- Integer-part accumulation loop of `parse_mpfr_base32` (py_box_cal
lines 47-53): `value = value * 32 + digit_value`. -/
def intValPy (s : List Char) : ℚ :=
  s.foldl (fun a c => a * 32 + (digitValPy c : ℚ)) 0

/-- Fractional-part accumulation loop of `parse_mpfr_base32` (py_box_cal
lines 55-62): digit `i` contributes `digit_value * 32 ^ (-(i + 1))`. -/
def fracValPy : List Char → ℚ
  | [] => 0
  | c :: cs => ((digitValPy c : ℚ) + fracValPy cs) / 32

/-- Embedding of `parse_mpfr_base32` (py_box_cal/mpfr_base32.py lines
11-70): special-case `"0"` and `"0@0"`, strip a leading minus, split at
most one `@` and one point (two or more raise, `none`), then accumulate
digit values without validating the alphabet. -/
def parse_mpfr_base32 (s : String) : Option ℚ :=
  if s = "0" ∨ s = "0@0" then some 0
  else
    let r : ℚ × List Char :=
      match s.toList with
      | '-' :: t => (-1, t)
      | t => (1, t)
    let sign := r.1
    let body := r.2
    let withExp : Option (List Char × ℤ) :=
      if '@' ∈ body then
        match splitOnChar '@' body with
        | [m, e] => (pyInt e).map (fun v => (m, v))
        | _ => none
      else some (body, 0)
    match withExp with
    | none => none
    | some (mantissa_str, base_exponent) =>
      let parts : Option (List Char × List Char) :=
        if '.' ∈ mantissa_str then
          match splitOnChar '.' mantissa_str with
          | [i, f] => some (i, f)
          | _ => none
        else some (mantissa_str, [])
      match parts with
      | none => none
      | some (integer_part, fractional_part) =>
        let mantissa_value := intValPy integer_part + fracValPy fractional_part
        some (sign * (mantissa_value * (32 : ℚ) ^ base_exponent))

/-- Fuel-indexed unfolding of the upward exponent search loop of
`decimal_to_mpfr_base32` (py_box_cal lines 96-101): while the value is
at least 1, divide by 32 and count.  The fuel passed by `expUpSteps`
provably dominates the number of iterations, so the count is exactly
the loop's. -/
def expUpAux : ℕ → ℚ → ℕ
  | 0, _ => 0
  | fuel + 1, temp => if 1 ≤ temp then expUpAux fuel (temp / 32) + 1 else 0

/-- Exponent search loop of `decimal_to_mpfr_base32` for `d >= 1`
(py_box_cal lines 96-101): count divisions by 32 until the value drops
below 1. -/
def expUpSteps (temp : ℚ) : ℕ := expUpAux ((⌊temp⌋).toNat + 1) temp

/-- Fuel-indexed unfolding of the downward exponent search loop of
`decimal_to_mpfr_base32` (py_box_cal lines 103-107): while the value is
below 1, multiply by 32 and count.  The positivity guard matches the
only call site (`temp = abs` of a nonzero value); on a nonpositive
value the Python loop would never stop. -/
def expDownAux : ℕ → ℚ → ℕ
  | 0, _ => 0
  | fuel + 1, temp =>
    if 0 < temp ∧ temp < 1 then expDownAux fuel (temp * 32) + 1 else 0

/-- Exponent search loop of `decimal_to_mpfr_base32` for `0 < d < 1`:
count multiplications by 32 until the value reaches 1. -/
def expDownSteps (temp : ℚ) : ℕ :=
  if 0 < temp then expDownAux ((⌈1 / temp⌉).toNat + 1) temp else 0

/-- Exponent computation of `decimal_to_mpfr_base32` (py_box_cal lines
94-108) for a positive value: the number of base-32 digits in front of
the radix point. -/
def findExp (d : ℚ) : ℤ :=
  if 1 ≤ d then (expUpSteps d : ℤ)
  else 1 - (expDownSteps d : ℤ)

/-- Digit generation loop of `decimal_to_mpfr_base32` (py_box_cal lines
110-130): up to `fuel = precision` digits, most significant first,
stopping early once the remaining value hits zero.  Python `int(...)`
truncates toward zero; the running value is nonnegative at every call
site, where truncation and `Int.floor` agree.  The source's division,
power and subtraction here are `getcontext().prec = 100` Decimal
operations; they are embedded exactly over ℚ, so this loop tracks the
Python only while every intermediate fits in 100 significant decimal
digits — for values needing longer intermediates the context rounds
and the emitted digits can differ from the exact ones. -/
def digitLoop (E : ℤ) : ℚ → ℕ → ℕ → List ℕ
  | _, _, 0 => []
  | value, i, fuel + 1 =>
    let scale : ℚ := (32 : ℚ) ^ (E - 1 - (i : ℤ))
    let digit : ℕ := (⌊value / scale⌋).toNat % 32
    let value' : ℚ := value - (digit : ℚ) * scale
    digit :: (if value' = 0 then [] else digitLoop E value' (i + 1) fuel)

/-- Trailing-zero removal loop of `decimal_to_mpfr_base32` (py_box_cal
lines 132-134): pop trailing zero digits while more than one digit
remains. -/
def popTrailingZeros (ds : List ℕ) : List ℕ :=
  match ds.reverse.dropWhile (fun d => d = 0) with
  | [] => ds.take 1
  | r => r.reverse

/-- Embedding of `decimal_to_mpfr_base32` (py_box_cal/mpfr_base32.py
lines 73-156): zero prints as `"0"`; otherwise find the exponent of the
absolute value, generate up to `precision` base-32 digits by truncation,
drop trailing zeros and lay the digits out in radix-point notation.
The source runs under `getcontext().prec = 100`, which rounds every
Decimal operation (`abs`, the loop divisions and multiplications, the
powers `32**digit_pos`, the running subtractions) to 100 significant
decimal digits; the embedding computes them exactly over ℚ, so it
matches the Python output only on inputs whose intermediates all fit
in 100 significant decimal digits. -/
def decimal_to_mpfr_base32 (d : ℚ) (precision : ℕ) : List Char :=
  if d = 0 then ['0']
  else
    let sign : List Char := if d < 0 then ['-'] else []
    let a := |d|
    let exp : ℤ := findExp a
    let digitsL := popTrailingZeros (digitLoop exp a 0 precision)
    let digits_str : List Char := digitsL.map charOfDigit
    if 0 < exp then
      if (digits_str.length : ℤ) ≤ exp then
        sign ++ digits_str ++ List.replicate (exp - digits_str.length).toNat '0'
      else
        let integer_part := digits_str.take exp.toNat
        let fractional_part := digits_str.drop exp.toNat
        if fractional_part ≠ [] ∧ fractional_part ≠ ['0'] then
          sign ++ integer_part ++ '.' :: fractional_part
        else
          sign ++ integer_part
    else
      sign ++ '0' :: '.' :: (List.replicate (-exp).toNat '0' ++ digits_str)

/-- Embedding of `convert_10_to_32` (py_box_cal/base_convert.py lines
15-42): read the base-10 string exactly, compute the digit budget
`ceil(precision_bits * log 2 / log 32) + 1` and convert.  A read
failure raises `ValueError` (`none`). -/
def convert_10_to_32 (base10_str : String) (precision_bits : ℕ) :
    Option (List Char) :=
  match parseDecimal base10_str.toList with
  | some value => some (decimal_to_mpfr_base32 value (precDigits precision_bits))
  | none => none

end PyBoxCal

/-! ### py_box_cal/box_calculator.py -/

namespace BoxCalc

/-- Embedding of `_count_base32_digits` (box_calculator.py lines 28-34):
count alphanumeric characters of a base-32 string. -/
def countBase32Digits (s : String) : ℕ :=
  (s.toList.filter (fun c => c.isAlphanum)).length

/-- Parse-precision estimate shared by `calculate_precision` (lines
47-55) and `generate_grid` (lines 102-113): 5 bits per digit, a 64-bit
safety margin, rounded up to a 64-bit boundary with a floor of 64. -/
def parsePrecision (min_ca max_ca min_cb max_cb : String) : ℕ :=
  let max_digits := max (max (countBase32Digits min_ca) (countBase32Digits max_ca))
    (max (countBase32Digits min_cb) (countBase32Digits max_cb))
  let estimated_bits := max_digits * 5
  max 64 (((estimated_bits + 64 + 63) / 64) * 64)

/-- Embedding of `calculate_precision` (box_calculator.py lines 37-85):
parse the bounds at the estimated parse precision, special-case
degenerate resolutions and zero steps to 64 bits, otherwise
`ceil(log2(1 / delta)) + 32` rounded up to a 64-bit boundary, floor 64.
The Python takes the log through a machine float; `ratClog` is its
exact value. -/
def calculate_precision (min_ca max_ca min_cb max_cb : String)
    (resolution_ca resolution_cb : ℤ) : Option ℤ :=
  let pp := parsePrecision min_ca max_ca min_cb max_cb
  match PyCommon.parse_mpfr_base32 min_ca pp, PyCommon.parse_mpfr_base32 max_ca pp,
      PyCommon.parse_mpfr_base32 min_cb pp, PyCommon.parse_mpfr_base32 max_cb pp with
  | some min_ca_dec, some max_ca_dec, some min_cb_dec, some max_cb_dec =>
    if 1 < resolution_ca ∧ 1 < resolution_cb then
      let delta_ca := (max_ca_dec - min_ca_dec) / (resolution_ca : ℚ)
      let delta_cb := (max_cb_dec - min_cb_dec) / (resolution_cb : ℚ)
      let delta_c := min |delta_ca| |delta_cb|
      if delta_c = 0 then some 64
      else
        let required_bits : ℤ := ratClog 2 (1 / delta_c) + 32
        some (max 64 (((required_bits + 63).fdiv 64) * 64))
    else some 64
  | _, _, _, _ => none

/-- Python builtin `round`: round half to even. -/
def pyRound (q : ℚ) : ℤ :=
  let f := ⌊q⌋
  let r := q - (f : ℚ)
  if r < 1 / 2 then f
  else if 1 / 2 < r then f + 1
  else if f % 2 = 0 then f else f + 1

/-- Imaginary-axis resolution of `generate_grid` (box_calculator.py
lines 121-133): aspect-ratio scaled from the real-axis resolution with
a floor of 1, falling back to `resolution` for a zero-width box.  The
Python passes the aspect ratio through a machine float; the exact ratio
is used here. -/
def resolutionCb (min_ca max_ca min_cb max_cb : ℚ) (resolution : ℕ) : ℕ :=
  let range_ca := |max_ca - min_ca|
  let range_cb := |max_cb - min_cb|
  if 0 < range_ca then
    max 1 (pyRound ((resolution : ℚ) * (range_cb / range_ca))).toNat
  else resolution

/-- Per-axis sample of `generate_grid` (box_calculator.py lines
137-153): point `i` of `res` samples lies at
`min + (max - min) * i / res` when `res > 1`, and collapses to `min`
otherwise.  The max bound is exclusive: the divisor is `res`, not
`res - 1`. -/
def sampleAt (minv maxv : ℚ) (res : ℕ) (i : ℕ) : ℚ :=
  if 1 < res then minv + (maxv - minv) * (i : ℚ) / (res : ℚ) else minv

/-- Embedding of the grid-construction loop of `generate_grid`
(box_calculator.py lines 135-159) over the parsed rational bounds: the
row-major list of sampled coordinates with their grid coordinates,
before encoding back to numerals. -/
def generate_grid_core (min_ca max_ca min_cb max_cb : ℚ) (resolution : ℕ) :
    List (ℚ × ℚ × ℕ × ℕ) × ℕ × ℕ :=
  let resolution_ca := resolution
  let resolution_cb := resolutionCb min_ca max_ca min_cb max_cb resolution
  let grid := (List.range resolution_ca).flatMap (fun i =>
    (List.range resolution_cb).map (fun j =>
      (sampleAt min_ca max_ca resolution_ca i,
       sampleAt min_cb max_cb resolution_cb j, i, j)))
  (grid, resolution_ca, resolution_cb)

/-- Embedding of `generate_grid` (box_calculator.py lines 88-159): parse
the bounds at the digit-count precision, build the sample grid and
encode each coordinate through the codec at that precision. -/
def generate_grid (min_ca max_ca min_cb max_cb : String) (resolution : ℕ) :
    Option (List (List Char × List Char × ℕ × ℕ) × ℕ × ℕ) :=
  let precision := parsePrecision min_ca max_ca min_cb max_cb
  match PyCommon.parse_mpfr_base32 min_ca precision,
      PyCommon.parse_mpfr_base32 max_ca precision,
      PyCommon.parse_mpfr_base32 min_cb precision,
      PyCommon.parse_mpfr_base32 max_cb precision with
  | some a, some b, some c, some d =>
    let core := generate_grid_core a b c d resolution
    some (core.1.map (fun t =>
      (PyCommon.decimal_to_mpfr_base32 t.1 precision,
       PyCommon.decimal_to_mpfr_base32 t.2.1 precision, t.2.2.1, t.2.2.2)),
      core.2.1, core.2.2)
  | _, _, _, _ => none

/-! #### Worker and Pool -/

/-- Python whitespace test used by `str.strip` and `str.split`. -/
def isSpace (c : Char) : Bool :=
  c = ' ' ∨ c = '\t' ∨ c = '\n' ∨ c = '\r'

/-- Python `s.strip()`. -/
def pyStrip (s : List Char) : List Char :=
  ((s.dropWhile isSpace).reverse.dropWhile isSpace).reverse

/-- Helper of `pySplitWs`: accumulate the current word. -/
def splitWsAux : List Char → List Char → List (List Char)
  | [], acc => if acc = [] then [] else [acc.reverse]
  | c :: cs, acc =>
    if isSpace c then
      if acc = [] then splitWsAux cs []
      else acc.reverse :: splitWsAux cs []
    else splitWsAux cs (c :: acc)

/-- Python `s.split()` with no argument: split on whitespace runs,
discarding empty fields. -/
def pySplitWs (s : List Char) : List (List Char) := splitWsAux s []

/-- Back-end response fields of `MandelbrotWorker.calculate`. -/
structure WorkerResult where
  escaped : List Char
  final_za : List Char
  final_zb : List Char
  iterations : ℤ
deriving DecidableEq

/-- Embedding of the response handling of `MandelbrotWorker.calculate`
(box_calculator.py lines 197-211): strip and split the response line,
require exactly five fields with leading `CAL`, and read the iteration
field as an integer; anything else raises `ValueError` (`none`). -/
def workerParseResponse (response : String) : Option WorkerResult :=
  match pySplitWs (pyStrip response.toList) with
  | [p0, p1, p2, p3, p4] =>
    if p0 = ("CAL".toList) then
      (pyInt p4).map (fun n => ⟨p1, p2, p3, n⟩)
    else none
  | _ => none

/-- Well-formedness of a back-end response line as checked by
`MandelbrotWorker.calculate`: exactly five whitespace-separated fields,
the first being `CAL`, with an integer final field. -/
def wellFormedResponse (response : String) : Bool :=
  match pySplitWs (pyStrip response.toList) with
  | [p0, _, _, _, p4] => p0 = ("CAL".toList) && (pyInt p4).isSome
  | _ => false

/-- Outcome of one task inside `MandelbrotPool._worker_thread`.  The
thread body has exactly two behaviours per task: enqueue a result, or
catch the exception, log it to stderr, mark the task done and keep
running.  There is no propagating constructor because the
`except Exception` handler never re-raises. -/
inductive PoolOutcome where
  | delivered (idx : ℕ) (r : WorkerResult)
  | swallowed
deriving DecidableEq

/-- Embedding of one task pass of `MandelbrotPool._worker_thread`
(box_calculator.py lines 237-256), given the back-end response line for
the task: a parseable response is tagged with the task index and put on
the result queue; a `ValueError` from `calculate` is swallowed. -/
def poolHandleResponse (idx : ℕ) (response : String) : PoolOutcome :=
  match workerParseResponse response with
  | some r => .delivered idx r
  | none => .swallowed

/-! #### Convergence loop -/

/-- Safety ceiling `max_total_iterations` (box_calculator.py line 343). -/
def max_total_iterations : ℤ := 10000000

/-- Per-point state of the `results` dictionary (box_calculator.py lines
322-333): coordinates, iterate, escape flag (the raw response string,
compared against `N`), cumulative iterations, and the final iterate once
a result has arrived. -/
structure GridPoint where
  ca : List Char
  cb : List Char
  x : ℕ
  y : ℕ
  za : List Char
  zb : List Char
  escaped : List Char
  iterations : ℤ
  final_za : Option (List Char)
  final_zb : Option (List Char)
deriving DecidableEq

/-- Initial per-point state (box_calculator.py lines 324-333). -/
def initPoint (ca cb : List Char) (x y : ℕ) : GridPoint :=
  ⟨ca, cb, x, y, ['0'], ['0'], ['N'], 0, none, none⟩

/-- Task tuple submitted to the pool (box_calculator.py lines 366-372 and
265-268). -/
structure Task where
  idx : ℕ
  precision : ℤ
  za : List Char
  zb : List Char
  ca : List Char
  cb : List Char
  max_iterations : ℤ
  escape_radius : List Char
deriving DecidableEq

/-- One drained pool result (a `WorkerResult` plus the task index carried
through the result queue). -/
structure PoolResult where
  idx : ℕ
  escaped : List Char
  final_za : List Char
  final_zb : List Char
  iterations : ℤ
deriving DecidableEq

/-- Embedding of the working-set selection (box_calculator.py lines
348-353): indices of points that have not escaped and are below both the
safety ceiling and the round target. -/
def unescapeIndices (pts : List GridPoint) (t M : ℤ) : List ℕ :=
  (List.range pts.length).filter (fun idx =>
    match pts[idx]? with
    | some r => decide (r.escaped = ['N'] ∧ r.iterations < M ∧ r.iterations < t)
    | none => false)

/-- Embedding of the task-submission loop (box_calculator.py lines
362-372): one task per selected point, carrying the difference between
the round target and the point's cumulative iterations, skipping
nonpositive differences. -/
def mkTasks (pts : List GridPoint) (t M precision : ℤ)
    (escape_radius : List Char) : List Task :=
  (unescapeIndices pts t M).filterMap (fun idx =>
    match pts[idx]? with
    | some r =>
      let iterations_to_run := t - r.iterations
      if iterations_to_run ≤ 0 then none
      else some ⟨idx, precision, r.za, r.zb, r.ca, r.cb, iterations_to_run,
        escape_radius⟩
    | none => none)

/-- Embedding of the per-result update (box_calculator.py lines 382-395):
overwrite the escape flag and final iterate, add the consumed iterations
to the cumulative count, and carry the final iterate forward as the next
round's starting iterate.  An index outside the dictionary raises
`KeyError` (`none`). -/
def applyResult (pts : List GridPoint) (res : PoolResult) :
    Option (List GridPoint) :=
  match pts[res.idx]? with
  | none => none
  | some p =>
    some (pts.set res.idx { p with
      escaped := res.escaped
      final_za := some res.final_za
      final_zb := some res.final_zb
      iterations := p.iterations + res.iterations
      za := res.final_za
      zb := res.final_zb })

/-- Batch update over the drained results of one round. -/
def applyBatch (pts : List GridPoint) (batch : List PoolResult) :
    Option (List GridPoint) :=
  batch.foldlM applyResult pts

/-- Newly-escaped count of one round (box_calculator.py lines 378-391). -/
def newlyEscaped (batch : List PoolResult) : ℕ :=
  (batch.filter (fun r => decide (r.escaped = ['Y']))).length

/-- Result of one round of the adaptive loop. -/
inductive RoundExit where
  | next (pts : List GridPoint) (t : ℤ)
  | done (pts : List GridPoint)
  | aborted

/-- Embedding of one iteration of the adaptive loop (box_calculator.py
lines 345-418) with the drained batch supplied by the environment: empty
working set, zero escapes, a sub-1% escape fraction, or a doubled budget
beyond the ceiling terminate the loop; otherwise the doubled budget is
carried into the next round.  The escape percentage is computed through
a machine float in Python; the exact rational is used here. -/
def roundStep (M : ℤ) (pts : List GridPoint) (t : ℤ)
    (batch : List PoolResult) : RoundExit :=
  let sel := unescapeIndices pts t M
  if sel.isEmpty then .done pts
  else
    match applyBatch pts batch with
    | none => .aborted
    | some pts2 =>
      let newly := newlyEscaped batch
      if newly = 0 then .done pts2
      else if ((newly : ℚ) / (sel.length : ℚ)) * 100 < 1 then .done pts2
      else
        let t2 := t * 2
        if M < t2 then .done pts2 else .next pts2 t2

/-- Fuel-indexed unfolding of the adaptive loop: round `k` consumes the
batch `oracle k`.  `none` means the fuel ran out or a round aborted. -/
def runLoop (M : ℤ) (oracle : ℕ → List PoolResult) :
    ℕ → ℕ → List GridPoint → ℤ → Option (List GridPoint)
  | 0, _, _, _ => none
  | fuel + 1, k, pts, t =>
    match roundStep M pts t (oracle k) with
    | .done pts2 => some pts2
    | .aborted => none
    | .next pts2 t2 => runLoop M oracle fuel (k + 1) pts2 t2

end BoxCalc

end Mandel

namespace Mandel

/-! ## Supporting lemmas

The Batteries rational primitives are restored to their definitional
transparency so that concrete witnesses evaluate by `decide`, and the
recursion-depth limit is raised for the same evaluations. -/

attribute [local semireducible] Rat.mul Rat.inv Rat.add Rat.sub

set_option maxRecDepth 100000

theorem digitsBE_length (n v : ℕ) : (digitsBE n v).length = n := by
  induction n generalizing v with
  | zero => rfl
  | succ n ih => simp [digitsBE, ih]

theorem intVal_digitsBE (n v : ℕ) (h : v < 32 ^ n) :
    intVal (digitsBE n v) = v := by
  induction n generalizing v with
  | zero =>
    simp [digitsBE, intVal]
    omega
  | succ n ih =>
    have h32 : v / 32 < 32 ^ n := by
      rw [Nat.div_lt_iff_lt_mul (by norm_num)]
      calc v < 32 ^ (n + 1) := h
        _ = 32 ^ n * 32 := by ring
    have hval : intVal (digitsBE n (v / 32) ++ [v % 32]) =
        intVal (digitsBE n (v / 32)) * 32 + v % 32 := by
      generalize digitsBE n (v / 32) = L
      induction L with
      | nil => simp [intVal]
      | cons a L ihl => simp [intVal, ihl]; ring
    rw [digitsBE, hval, ih _ h32]
    omega

theorem digitsBE_lt (n : ℕ) : ∀ v d, d ∈ digitsBE n v → d < 32 := by
  induction n with
  | zero => intro v d hd; simp [digitsBE] at hd
  | succ n ih =>
    intro v d hd
    rw [digitsBE] at hd
    rcases List.mem_append.mp hd with h | h
    · exact ih _ _ h
    · simp at h; omega

theorem natLogAux_spec (b : ℕ) (hb : 2 ≤ b) :
    ∀ fuel n, 1 ≤ n → n ≤ fuel →
      b ^ natLogAux b fuel n ≤ n ∧ n < b ^ (natLogAux b fuel n + 1) := by
  intro fuel
  induction fuel with
  | zero => intro n h1 h2; omega
  | succ fuel ih =>
    intro n h1 h2
    rw [natLogAux]
    split_ifs with hle
    · have hbpos : 0 < b := by omega
      have hdiv1 : 1 ≤ n / b := (Nat.one_le_div_iff hbpos).mpr hle
      have hdivlt : n / b < n := Nat.div_lt_self (by omega) (by omega)
      have hfuel : n / b ≤ fuel := by omega
      obtain ⟨l, u⟩ := ih (n / b) hdiv1 hfuel
      constructor
      · calc b ^ (natLogAux b fuel (n / b) + 1)
            = b * b ^ natLogAux b fuel (n / b) := by ring
          _ ≤ b * (n / b) := Nat.mul_le_mul_left _ l
          _ ≤ n := Nat.mul_div_le n b
      · have hx : n < b ^ (natLogAux b fuel (n / b) + 1) * b :=
          (Nat.div_lt_iff_lt_mul hbpos).mp u
        calc n < b ^ (natLogAux b fuel (n / b) + 1) * b := hx
          _ = b ^ (natLogAux b fuel (n / b) + 1 + 1) := by ring
    · constructor
      · simpa using h1
      · simpa using (by omega : n < b)

theorem natLogB_spec (b n : ℕ) (hb : 2 ≤ b) (hn : 1 ≤ n) :
    b ^ natLogB b n ≤ n ∧ n < b ^ (natLogB b n + 1) :=
  natLogAux_spec b hb n n hn le_rfl

theorem natClogAux_spec (b : ℕ) (hb : 2 ≤ b) :
    ∀ fuel n, 1 ≤ n → n ≤ fuel →
      n ≤ b ^ natClogAux b fuel n ∧
        (1 < n → b ^ (natClogAux b fuel n - 1) < n) := by
  intro fuel
  induction fuel with
  | zero => intro n h1 h2; omega
  | succ fuel ih =>
    intro n h1 h2
    rw [natClogAux]
    split_ifs with hlt
    · have hbpos : 0 < b := by omega
      set m := (n + b - 1) / b with hm
      have hdm : b * m + (n + b - 1) % b = n + b - 1 := by
        rw [hm]; exact Nat.div_add_mod (n + b - 1) b
      have hmod : (n + b - 1) % b < b := Nat.mod_lt _ hbpos
      have hbm_ge : n ≤ b * m := by omega
      have hbm_le : b * m ≤ n + b - 1 := by omega
      have hm1 : 1 ≤ m := by
        rcases Nat.eq_zero_or_pos m with h0 | h
        · rw [h0, Nat.mul_zero] at hbm_ge; omega
        · exact h
      have hmlt : m < n := by
        by_contra hc
        push_neg at hc
        have hx1 : b * n ≤ b * m := Nat.mul_le_mul_left b hc
        have hx3 : n + b ≤ b * n := by
          have hbz : (2 : ℤ) ≤ (b : ℤ) := by exact_mod_cast hb
          have hnz : (2 : ℤ) ≤ (n : ℤ) := by exact_mod_cast hlt
          zify
          nlinarith [hbz, hnz]
        omega
      have hfuel : m ≤ fuel := by omega
      obtain ⟨u, l⟩ := ih m hm1 hfuel
      set k := natClogAux b fuel m with hk
      constructor
      · calc n ≤ b * m := hbm_ge
          _ ≤ b * b ^ k := Nat.mul_le_mul_left _ u
          _ = b ^ (k + 1) := by ring
      · intro _
        have hgoal : b ^ k < n := by
          rcases Nat.lt_or_ge 1 m with hm2 | hm2
          · have hl := l hm2
            have hmm : m - 1 = (n - 1) / b := by
              have hstep : m = (n - 1) / b + 1 := by
                rw [hm]
                have hnb : n + b - 1 = (n - 1) + b := by omega
                rw [hnb, Nat.add_div_right _ hbpos]
              omega
            have hk1 : 1 ≤ k := by
              rw [hk]
              cases fuel with
              | zero => omega
              | succ f =>
                rw [natClogAux]
                split_ifs
                omega
            have h1' : b ^ (k - 1) ≤ m - 1 := by omega
            have hbk : b ^ k ≤ n - 1 := by
              have hkk : k - 1 + 1 = k := by omega
              calc b ^ k = b ^ (k - 1 + 1) := by rw [hkk]
                _ = b * b ^ (k - 1) := by ring
                _ ≤ b * ((n - 1) / b) := Nat.mul_le_mul_left _ (hmm ▸ h1')
                _ ≤ n - 1 := Nat.mul_div_le _ _
            omega
          · have hm1' : m = 1 := by omega
            have hk0 : k = 0 := by
              rw [hk, hm1']
              cases fuel with
              | zero => rfl
              | succ f =>
                rw [natClogAux]
                simp
            rw [hk0]
            simpa using hlt
        simpa using hgoal
    · constructor
      · have hn1 : n = 1 := by omega
        simp [hn1]
      · omega

theorem natClogB_spec (b n : ℕ) (hb : 2 ≤ b) (hn : 1 ≤ n) :
    n ≤ b ^ natClogB b n ∧ (1 < n → b ^ (natClogB b n - 1) < n) :=
  natClogAux_spec b hb n n hn le_rfl

theorem ratLog_spec (b : ℕ) (q : ℚ) (hb : 2 ≤ b) (hq : 0 < q) :
    (b : ℚ) ^ ratLog b q ≤ q ∧ q < (b : ℚ) ^ (ratLog b q + 1) := by
  have hb1 : (1 : ℚ) < (b : ℚ) := by exact_mod_cast (by omega : 1 < b)
  have hb0 : (0 : ℚ) < (b : ℚ) := by linarith
  rw [ratLog]
  split_ifs with hge
  · set n := (⌊q⌋).toNat with hn
    have hfl : (1 : ℤ) ≤ ⌊q⌋ := Int.le_floor.mpr (by exact_mod_cast hge)
    have hn1 : 1 ≤ n := by omega
    obtain ⟨l, u⟩ := natLogB_spec b n hb hn1
    constructor
    · have h1 : ((b ^ natLogB b n : ℕ) : ℚ) ≤ (n : ℚ) := by exact_mod_cast l
      have h2 : ((n : ℤ) : ℚ) ≤ q := by
        rw [hn, Int.toNat_of_nonneg (by omega)]
        exact Int.floor_le q
      push_cast at h1 h2 ⊢
      rw [zpow_natCast]
      linarith
    · have h1 : (n : ℚ) + 1 ≤ ((b ^ (natLogB b n + 1) : ℕ) : ℚ) := by
        exact_mod_cast u
      have h2 : q < ((n : ℤ) : ℚ) + 1 := by
        rw [hn, Int.toNat_of_nonneg (by omega)]
        exact Int.lt_floor_add_one q
      push_cast at h1 h2 ⊢
      rw [show ((natLogB b n : ℤ) + 1) = ((natLogB b n + 1 : ℕ) : ℤ) by push_cast; ring,
        zpow_natCast]
      linarith
  · push_neg at hge
    have hu : (1 : ℚ) < 1 / q := by
      rw [lt_div_iff₀ hq]; linarith
    have hcl : (2 : ℤ) ≤ ⌈1 / q⌉ := by
      have := Int.lt_ceil.mpr (show ((1 : ℤ) : ℚ) < 1 / q by push_cast; exact hu)
      omega
    set n := (⌈1 / q⌉).toNat with hn
    have hn2 : 2 ≤ n := by omega
    obtain ⟨u, l⟩ := natClogB_spec b n hb (by omega)
    have hl := l (by omega)
    set c := natClogB b n with hc
    have hc1 : 1 ≤ c := by
      by_contra hcc
      push_neg at hcc
      interval_cases c
      simp at u
      omega
    have hzn : ((n : ℤ)) = ⌈1 / q⌉ := by
      rw [hn]; exact Int.toNat_of_nonneg (by omega)
    constructor
    · have hB : (b : ℚ) ^ (-(natClogB b n : ℤ)) = (((b ^ c : ℕ) : ℚ))⁻¹ := by
        rw [← hc, zpow_neg, zpow_natCast]
        push_cast
        ring_nf
      have hB0 : (0 : ℚ) < ((b ^ c : ℕ) : ℚ) := by
        exact_mod_cast pow_pos (show 0 < b by omega) c
      rw [hB, inv_eq_one_div, div_le_iff₀ hB0]
      have h1 : 1 / q ≤ ((n : ℚ)) := by
        have hle := Int.le_ceil (1 / q)
        rw [← hzn] at hle
        exact_mod_cast hle
      have h2 : (n : ℚ) ≤ ((b ^ c : ℕ) : ℚ) := by exact_mod_cast u
      rw [div_le_iff₀ hq] at h1
      nlinarith [h1, h2, hq.le]
    · have hzc : (-(natClogB b n : ℤ) + 1) = -(((c - 1 : ℕ)) : ℤ) := by
        rw [← hc]; omega
      have hA : (b : ℚ) ^ (-(natClogB b n : ℤ) + 1) =
          (((b ^ (c - 1) : ℕ) : ℚ))⁻¹ := by
        rw [hzc, zpow_neg, zpow_natCast]
        push_cast
        ring_nf
      have hA0 : (0 : ℚ) < ((b ^ (c - 1) : ℕ) : ℚ) := by
        exact_mod_cast pow_pos (show 0 < b by omega) (c - 1)
      rw [hA, inv_eq_one_div, lt_div_iff₀ hA0]
      have hup : ((n : ℚ)) - 1 < 1 / q := by
        have hceil : ((⌈1 / q⌉ : ℤ) : ℚ) < 1 / q + 1 := Int.ceil_lt_add_one (1 / q)
        rw [← hzn] at hceil
        push_cast at hceil
        linarith
      have hAn : ((b ^ (c - 1) : ℕ) : ℚ) ≤ (n : ℚ) - 1 := by
        have hnat : b ^ (c - 1) + 1 ≤ n := hl
        have hcast : ((b ^ (c - 1) : ℕ) : ℚ) + 1 ≤ (n : ℚ) := by exact_mod_cast hnat
        linarith
      have hAq : ((b ^ (c - 1) : ℕ) : ℚ) < 1 / q := lt_of_le_of_lt hAn hup
      rw [lt_div_iff₀ hq] at hAq
      rw [mul_comm]
      exact hAq

/-- Uniqueness of the integer logarithm: any exponent whose powers
bracket `q` is `ratLog`. -/
theorem ratLog_eq_of (b : ℕ) (q : ℚ) (k : ℤ) (hb : 2 ≤ b) (hq : 0 < q)
    (h1 : (b : ℚ) ^ k ≤ q) (h2 : q < (b : ℚ) ^ (k + 1)) : ratLog b q = k := by
  have hb1 : (1 : ℚ) < (b : ℚ) := by exact_mod_cast (by omega : 1 < b)
  obtain ⟨l, u⟩ := ratLog_spec b q hb hq
  by_contra hne
  rcases lt_or_gt_of_ne hne with hlt | hgt
  · have hle : ratLog b q + 1 ≤ k := by omega
    have := zpow_le_zpow_right₀ (le_of_lt hb1) hle
    have : q < q := lt_of_lt_of_le (lt_of_lt_of_le u this) h1
    exact absurd this (lt_irrefl q)
  · have hle : k + 1 ≤ ratLog b q := by omega
    have := zpow_le_zpow_right₀ (le_of_lt hb1) hle
    have : q < q := lt_of_lt_of_le (lt_of_lt_of_le h2 this) l
    exact absurd this (lt_irrefl q)

/-! ### Digit-list value lemmas -/

theorem intVal_append (xs ys : List ℕ) :
    intVal (xs ++ ys) = intVal xs * 32 ^ ys.length + intVal ys := by
  induction xs with
  | nil => simp [intVal]
  | cons d xs ih =>
    show d * 32 ^ (xs ++ ys).length + intVal (xs ++ ys) =
      (d * 32 ^ xs.length + intVal xs) * 32 ^ ys.length + intVal ys
    rw [ih, List.length_append, pow_add]
    ring

theorem intVal_lt (ds : List ℕ) (h : ∀ d ∈ ds, d < 32) :
    intVal ds < 32 ^ ds.length := by
  induction ds with
  | nil => simp [intVal]
  | cons d ds ih =>
    have hd : d < 32 := h d (by simp)
    have hih := ih (fun x hx => h x (by simp [hx]))
    simp only [intVal, List.length_cons]
    calc d * 32 ^ ds.length + intVal ds
        < d * 32 ^ ds.length + 32 ^ ds.length := by omega
      _ = (d + 1) * 32 ^ ds.length := by ring
      _ ≤ 32 * 32 ^ ds.length := Nat.mul_le_mul_right _ (by omega)
      _ = 32 ^ (ds.length + 1) := by ring

theorem intVal_eq_zero_iff (ds : List ℕ) :
    intVal ds = 0 ↔ ∀ d ∈ ds, d = 0 := by
  induction ds with
  | nil => simp [intVal]
  | cons d ds ih =>
    simp only [intVal, List.mem_cons]
    constructor
    · intro h
      have h32 : 0 < 32 ^ ds.length := Nat.pos_pow_of_pos _ (by norm_num)
      have hd : d = 0 := by
        by_contra hd
        have : 1 * 32 ^ ds.length ≤ d * 32 ^ ds.length :=
          Nat.mul_le_mul_right _ (by omega)
        omega
      have hds : intVal ds = 0 := by omega
      intro x hx
      rcases hx with rfl | hx
      · exact hd
      · exact ih.mp hds x hx
    · intro h
      have hd : d = 0 := h d (Or.inl rfl)
      have hds : intVal ds = 0 := ih.mpr (fun x hx => h x (Or.inr hx))
      simp [hd, hds]

theorem intVal_replicate (k : ℕ) : intVal (List.replicate k 0) = 0 :=
  (intVal_eq_zero_iff _).mpr (fun d hd => List.eq_of_mem_replicate hd)

theorem fracVal_append (xs ys : List ℕ) :
    fracVal (xs ++ ys) = fracVal xs + fracVal ys / 32 ^ xs.length := by
  induction xs with
  | nil => simp [fracVal]
  | cons d xs ih =>
    show ((d : ℚ) + fracVal (xs ++ ys)) / 32 =
      ((d : ℚ) + fracVal xs) / 32 + fracVal ys / 32 ^ (xs.length + 1)
    rw [ih, pow_succ]
    have h32 : (32 : ℚ) ^ xs.length ≠ 0 := by positivity
    field_simp
    ring

theorem fracVal_replicate (k : ℕ) : fracVal (List.replicate k 0) = 0 := by
  induction k with
  | zero => rfl
  | succ k ih => simp [List.replicate_succ, fracVal, ih]

theorem fracVal_eq_div (ds : List ℕ) :
    fracVal ds = (intVal ds : ℚ) / 32 ^ ds.length := by
  induction ds with
  | nil => simp [fracVal, intVal]
  | cons d ds ih =>
    show ((d : ℚ) + fracVal ds) / 32 =
      ((d * 32 ^ ds.length + intVal ds : ℕ) : ℚ) / 32 ^ (ds.length + 1)
    rw [ih, pow_succ]
    have h32 : (32 : ℚ) ^ ds.length ≠ 0 := by positivity
    push_cast
    field_simp

/-! ### Trailing-zero trimming lemmas -/

theorem trimZeros_append_zero (xs : List ℕ) :
    trimZeros (xs ++ [0]) = trimZeros xs := by
  simp [trimZeros, List.dropWhile]

theorem trimZeros_append_nonzero (xs : List ℕ) (d : ℕ) (hd : d ≠ 0) :
    trimZeros (xs ++ [d]) = xs ++ [d] := by
  rw [trimZeros, List.reverse_append]
  simp only [List.reverse_cons, List.reverse_nil, List.nil_append,
    List.singleton_append]
  rw [List.dropWhile_cons_of_neg (by simpa using hd)]
  simp

theorem trimZeros_decomp (ds : List ℕ) :
    ∃ k, ds = trimZeros ds ++ List.replicate k 0 := by
  induction ds using List.reverseRecOn with
  | nil => exact ⟨0, rfl⟩
  | append_singleton xs d ih =>
    by_cases hd : d = 0
    · subst hd
      obtain ⟨k, hk⟩ := ih
      refine ⟨k + 1, ?_⟩
      rw [trimZeros_append_zero]
      rw [List.replicate_succ', ← List.append_assoc, ← hk]
    · exact ⟨0, by rw [trimZeros_append_nonzero xs d hd]; simp⟩

theorem trimZeros_eq_nil_iff (ds : List ℕ) :
    trimZeros ds = [] ↔ ∀ d ∈ ds, d = 0 := by
  rw [trimZeros, List.reverse_eq_nil_iff, List.dropWhile_eq_nil_iff]
  constructor
  · intro h d hd
    simpa using h d (List.mem_reverse.mpr hd)
  · intro h d hd
    simpa using h d (List.mem_reverse.mp hd)

theorem head?_dropWhile_neg {α : Type} (p : α → Bool) :
    ∀ (l : List α) (x : α), (l.dropWhile p).head? = some x → p x = false := by
  intro l
  induction l with
  | nil => intro x h; simp [List.dropWhile] at h
  | cons a l ih =>
    intro x h
    by_cases ha : p a
    · rw [List.dropWhile_cons_of_pos ha] at h
      exact ih x h
    · rw [List.dropWhile_cons_of_neg ha] at h
      simp at h
      rw [← h]
      simpa using ha

theorem trimZeros_getLast_ne (ds : List ℕ) (x : ℕ)
    (h : (trimZeros ds).getLast? = some x) : x ≠ 0 := by
  rw [trimZeros] at h
  rw [List.getLast?_reverse] at h
  have := head?_dropWhile_neg (fun d => d = 0) ds.reverse x h
  simpa using this

theorem mem_trimZeros (ds : List ℕ) (d : ℕ) (h : d ∈ trimZeros ds) :
    d ∈ ds := by
  rw [trimZeros, List.mem_reverse] at h
  have := (List.dropWhile_sublist (fun x => x = 0) (l := ds.reverse)).mem h
  exact List.mem_reverse.mp this

theorem trimZeros_append_replicate (xs : List ℕ) (k : ℕ) :
    trimZeros (xs ++ List.replicate k 0) = trimZeros xs := by
  induction k with
  | zero => simp
  | succ k ih =>
    rw [List.replicate_succ', ← List.append_assoc, trimZeros_append_zero, ih]

theorem trimZeros_append_left (xs ys : List ℕ) (h : trimZeros ys ≠ []) :
    trimZeros (xs ++ ys) = xs ++ trimZeros ys := by
  rw [trimZeros, List.reverse_append, List.dropWhile_append]
  have hne : (ys.reverse.dropWhile (fun d => d = 0)).isEmpty = false := by
    rcases hlist : ys.reverse.dropWhile (fun d => d = 0) with _ | ⟨a, t⟩
    · exact absurd (by rw [trimZeros, hlist]; rfl) h
    · rw [hlist]; rfl
  rw [hne]
  simp only [Bool.false_eq_true, if_false, List.reverse_append,
    List.reverse_reverse]
  rfl

theorem trimZeros_eq_self (ds : List ℕ) :
    ds ≠ [] → (∀ x, ds.getLast? = some x → x ≠ 0) → trimZeros ds = ds := by
  induction ds using List.reverseRecOn with
  | nil => intro hne _; exact absurd rfl hne
  | append_singleton xs d _ =>
    intro _ h
    refine trimZeros_append_nonzero xs d (h d ?_)
    simp

theorem fracVal_trimZeros (ds : List ℕ) :
    fracVal (trimZeros ds) = fracVal ds := by
  obtain ⟨k, hk⟩ := trimZeros_decomp ds
  conv_rhs => rw [hk]
  rw [fracVal_append, fracVal_replicate]
  simp

theorem intVal_trimZeros (ds : List ℕ) :
    ∃ k, intVal ds = intVal (trimZeros ds) * 32 ^ k ∧
      ds = trimZeros ds ++ List.replicate k 0 := by
  obtain ⟨k, hk⟩ := trimZeros_decomp ds
  refine ⟨k, ?_, hk⟩
  conv_lhs => rw [hk]
  rw [intVal_append, intVal_replicate, List.length_replicate]
  omega

/-! ### Character-set and digit-string lemmas -/

theorem charOfDigit_spec (d : ℕ) (hd : d < 32) :
    isDigit32 (charOfDigit d) = true ∧ charOfDigit d ≠ '.' ∧
      charOfDigit d ≠ '-' ∧ charOfDigit d ≠ '@' ∧
      (charOfDigit d = '0' ↔ d = 0) := by
  have hfin : ∀ d : Fin 32, isDigit32 (charOfDigit d.val) = true ∧
      charOfDigit d.val ≠ '.' ∧ charOfDigit d.val ≠ '-' ∧
      charOfDigit d.val ≠ '@' ∧ (charOfDigit d.val = '0' ↔ d.val = 0) := by
    decide
  exact hfin ⟨d, hd⟩

theorem mem_rstripChar (s : List Char) (x c : Char)
    (h : c ∈ PyCommon.rstripChar s x) : c ∈ s := by
  rw [PyCommon.rstripChar] at h
  rw [List.mem_reverse] at h
  have := (List.dropWhile_sublist (fun y => y = x) (l := s.reverse)).mem h
  rw [List.mem_reverse] at this
  exact this

theorem mem_remove_trailing_zeros (s : List Char) (c : Char)
    (h : c ∈ PyCommon.remove_trailing_zeros s) : c ∈ s := by
  rw [PyCommon.remove_trailing_zeros] at h
  split_ifs at h with hdot
  · exact mem_rstripChar _ _ _ (mem_rstripChar _ _ _ h)
  · exact h

theorem digitsBE_head? (n v : ℕ) (hn : 1 ≤ n) :
    (digitsBE n v).head? = some (v / 32 ^ (n - 1) % 32) := by
  induction n generalizing v with
  | zero => omega
  | succ n ih =>
    rw [digitsBE]
    cases n with
    | zero => simp [digitsBE]
    | succ m =>
      have hne : digitsBE (m + 1) (v / 32) ≠ [] := by
        intro hcon
        have hl := digitsBE_length (m + 1) (v / 32)
        rw [hcon] at hl
        simp at hl
      rw [List.head?_append_of_ne_nil _ hne, ih (v / 32) (by omega)]
      have hdd : v / 32 / 32 ^ (m + 1 - 1) = v / 32 ^ (m + 1 + 1 - 1) := by
        rw [Nat.div_div_eq_div_mul]
        congr 1
        rw [← pow_succ']
        congr 1
      rw [hdd]

/-- Bounds on the rounded digit block of `mpfrGetStr32` for a nonzero
value: the integer `D` lies between `32 ^ (n-1)` and `32 ^ n`
inclusive. -/
theorem mpfrGetStr32_D_bounds (v : ℚ) (n : ℕ) (hv : v ≠ 0) (hn : 1 ≤ n) :
    (32 : ℤ) ^ (n - 1) ≤ round (|v| * (32 : ℚ) ^ ((n : ℤ) - (ratLog 32 |v| + 1))) ∧
      round (|v| * (32 : ℚ) ^ ((n : ℤ) - (ratLog 32 |v| + 1))) ≤ 32 ^ n := by
  have hpos : (0 : ℚ) < |v| := abs_pos.mpr hv
  obtain ⟨hl, hu⟩ := ratLog_spec 32 |v| (by omega) hpos
  set E : ℤ := ratLog 32 |v| + 1 with hE
  set x : ℚ := |v| * (32 : ℚ) ^ ((n : ℤ) - E) with hx
  have h32 : (0 : ℚ) < (32 : ℚ) ^ ((n : ℤ) - E) := by positivity
  have hxl : (32 : ℚ) ^ ((n : ℤ) - 1) ≤ x := by
    rw [hx]
    calc (32 : ℚ) ^ ((n : ℤ) - 1) = (32 : ℚ) ^ (E - 1) * (32 : ℚ) ^ ((n : ℤ) - E) := by
          rw [← zpow_add₀ (by norm_num : (32:ℚ) ≠ 0)]
          congr 1
          ring
      _ ≤ |v| * (32 : ℚ) ^ ((n : ℤ) - E) := by
          apply mul_le_mul_of_nonneg_right _ (le_of_lt h32)
          simpa [hE] using hl
  have hxu : x < (32 : ℚ) ^ (n : ℤ) := by
    rw [hx]
    calc |v| * (32 : ℚ) ^ ((n : ℤ) - E) < (32 : ℚ) ^ E * (32 : ℚ) ^ ((n : ℤ) - E) := by
          apply mul_lt_mul_of_pos_right _ h32
          simpa [hE] using hu
      _ = (32 : ℚ) ^ (n : ℤ) := by
          rw [← zpow_add₀ (by norm_num : (32:ℚ) ≠ 0)]
          congr 1
          ring
  constructor
  · rw [round_eq, Int.le_floor]
    push_cast
    have hnat : (32 : ℚ) ^ ((n - 1 : ℕ)) = (32 : ℚ) ^ ((n : ℤ) - 1) := by
      rw [show ((n : ℤ) - 1) = ((n - 1 : ℕ) : ℤ) by omega, zpow_natCast]
    rw [hnat]
    linarith
  · rw [round_eq]
    have hfl : ⌊x + 1 / 2⌋ < (32 : ℤ) ^ n + 1 := by
      rw [Int.floor_lt]
      push_cast
      have hnat : (32 : ℚ) ^ (n : ℕ) = (32 : ℚ) ^ ((n : ℤ)) := by
        rw [zpow_natCast]
      rw [hnat]
      linarith
    omega

/-- Digit-block well-formedness of the modelled MPFR digit generation:
for a nonzero value and a positive digit budget, exactly `n` digits are
produced, each below 32, with a nonzero leading digit. -/
theorem mpfrGetStr32_digits_spec (v : ℚ) (n : ℕ) (hv : v ≠ 0) (hn : 1 ≤ n) :
    (mpfrGetStr32 v n).1.length = n ∧
      (∀ d ∈ (mpfrGetStr32 v n).1, d < 32) ∧
      (∀ hd, (mpfrGetStr32 v n).1.head? = some hd → hd ≠ 0) := by
  obtain ⟨hDl, hDu⟩ := mpfrGetStr32_D_bounds v n hv hn
  rw [mpfrGetStr32]
  set D : ℤ := round (|v| * (32 : ℚ) ^ ((n : ℤ) - (ratLog 32 |v| + 1))) with hD
  have hD0 : (0 : ℤ) ≤ D := le_trans (by positivity) hDl
  split_ifs with hre
  · refine ⟨by simp; omega, ?_, ?_⟩
    · intro d hd
      simp at hd
      rcases hd with h | h <;> omega
    · intro hd hhd
      simp at hhd
      omega
  · have hcast1 : ((32 : ℤ) ^ n) = ((32 ^ n : ℕ) : ℤ) := by push_cast; ring
    have hcast2 : ((32 : ℤ) ^ (n - 1)) = ((32 ^ (n - 1) : ℕ) : ℤ) := by
      push_cast; ring
    have huN : D.toNat < 32 ^ n := by omega
    have hlN : 32 ^ (n - 1) ≤ D.toNat := by omega
    refine ⟨digitsBE_length n _, digitsBE_lt n _, ?_⟩
    intro hd hhd
    rw [digitsBE_head? n _ hn] at hhd
    obtain rfl := Option.some.inj hhd
    have hq : 1 ≤ D.toNat / 32 ^ (n - 1) := (Nat.one_le_div_iff (by positivity)).mpr hlN
    have hq2 : D.toNat / 32 ^ (n - 1) < 32 := by
      rw [Nat.div_lt_iff_lt_mul (by positivity)]
      calc D.toNat < 32 ^ n := huN
        _ = 32 * 32 ^ (n - 1) := by
          rw [← pow_succ']
          congr 1
          omega
    rw [Nat.mod_eq_of_lt hq2]
    omega

/-- Character inventory of the radix-point layout: digit characters in,
digit characters, padding zeros and at most one point out. -/
theorem layoutB32_chars (m : List Char) (e : ℤ)
    (hm : ∀ x ∈ m, isDigit32 x = true) :
    ∀ c ∈ PyCommon.layoutB32 m e, isDigit32 c = true ∨ c = '.' := by
  intro c hc
  rw [PyCommon.layoutB32] at hc
  split_ifs at hc with h1 h2 h3
  · rcases List.mem_append.mp hc with h | h
    · exact Or.inl (hm c h)
    · left
      rw [List.eq_of_mem_replicate h]
      decide
  · rcases List.mem_append.mp hc with h | h
    · exact Or.inl (hm c ((List.take_sublist _ _).mem h))
    · rcases List.mem_cons.mp h with h | h
      · exact Or.inr h
      · exact Or.inl (hm c ((List.drop_sublist _ _).mem h))
  · rcases List.mem_cons.mp hc with h | h
    · left; rw [h]; decide
    · rcases List.mem_cons.mp h with h | h
      · exact Or.inr h
      · exact Or.inl (hm c h)
  · rcases List.mem_cons.mp hc with h | h
    · left; rw [h]; decide
    · rcases List.mem_cons.mp h with h | h
      · exact Or.inr h
      · rcases List.mem_append.mp h with h | h
        · left
          rw [List.eq_of_mem_replicate h]
          decide
        · exact Or.inl (hm c h)

/-- Character inventory of the py_common encoder output: every character
is a base-32 digit character or the radix point, except a leading minus
sign which occurs only for negative values.  In particular no exponent
marker `@` is ever emitted. -/
theorem mpfr_to_base32_chars (v : ℚ) (n : ℕ) (hn : 1 ≤ n) :
    ∀ c ∈ PyCommon.mpfr_to_base32 v n,
      isDigit32 c = true ∨ c = '.' ∨ (c = '-' ∧ v < 0) := by
  intro c hc
  simp only [PyCommon.mpfr_to_base32] at hc
  have hcommon : v ≠ 0 → c ∈ PyCommon.layoutB32
      ((mpfrGetStr32 v n).1.map charOfDigit) (mpfrGetStr32 v n).2 →
      isDigit32 c = true ∨ c = '.' ∨ (c = '-' ∧ v < 0) := by
    intro h0 hres
    have hdig := (mpfrGetStr32_digits_spec v n h0 hn).2.1
    have hmc : ∀ x ∈ (mpfrGetStr32 v n).1.map charOfDigit,
        isDigit32 x = true := by
      intro x hx
      obtain ⟨d, hd, rfl⟩ := List.mem_map.mp hx
      exact (charOfDigit_spec d (hdig d hd)).1
    rcases layoutB32_chars _ _ hmc c hres with h | h
    · exact Or.inl h
    · exact Or.inr (Or.inl h)
  split_ifs at hc with h0 hneg
  · simp at hc
    subst hc
    left
    decide
  · have hc2 := mem_remove_trailing_zeros _ _ hc
    rcases List.mem_append.mp hc2 with hsign | hres
    · simp at hsign
      exact Or.inr (Or.inr ⟨hsign, hneg⟩)
    · exact hcommon h0 hres
  · have hc2 := mem_remove_trailing_zeros _ _ hc
    rcases List.mem_append.mp hc2 with hsign | hres
    · simp at hsign
    · exact hcommon h0 hres

/-! ### Numeral lexer lemmas -/

theorem digitVal?_charOfDigit (d : ℕ) (hd : d < 32) :
    digitVal? (charOfDigit d) = some d := by
  have hfin : ∀ x : Fin 32, digitVal? (charOfDigit x.val) = some x.val := by
    decide
  exact hfin ⟨d, hd⟩

theorem charOfDigit_ne_plus (d : ℕ) (hd : d < 32) : charOfDigit d ≠ '+' := by
  have hfin : ∀ x : Fin 32, charOfDigit x.val ≠ '+' := by decide
  exact hfin ⟨d, hd⟩

theorem charOfDigit_zero : charOfDigit 0 = '0' := rfl

theorem lexDigits_map_append (ds : List ℕ) (rest : List Char)
    (hds : ∀ d ∈ ds, d < 32)
    (hrest : ∀ c, rest.head? = some c → digitVal? c = none) :
    lexDigits (ds.map charOfDigit ++ rest) = (ds, rest) := by
  induction ds with
  | nil =>
    rcases rest with _ | ⟨c, cs⟩
    · rfl
    · show lexDigits (c :: cs) = ([], c :: cs)
      rw [lexDigits, hrest c rfl]
  | cons d ds ih =>
    show lexDigits (charOfDigit d :: (ds.map charOfDigit ++ rest)) = _
    rw [lexDigits, digitVal?_charOfDigit d (hds d (by simp))]
    have hih := ih (fun x hx => hds x (by simp [hx]))
    show (d :: (lexDigits (ds.map charOfDigit ++ rest)).1,
      (lexDigits (ds.map charOfDigit ++ rest)).2) = (d :: ds, rest)
    rw [hih]

theorem mpfrStrValue_digits (ds : List ℕ) (hne : ds ≠ [])
    (hds : ∀ d ∈ ds, d < 32) :
    mpfrStrValue (ds.map charOfDigit) = some ((intVal ds : ℚ)) ∧
      mpfrStrValue ('-' :: ds.map charOfDigit) = some (-(intVal ds : ℚ)) := by
  rcases ds with _ | ⟨d0, ds'⟩
  · exact absurd rfl hne
  have hd0 : d0 < 32 := hds d0 (by simp)
  have hlex : lexDigits ((d0 :: ds').map charOfDigit ++ []) =
      (d0 :: ds', []) :=
    lexDigits_map_append (d0 :: ds') [] hds (fun c hc => by simp at hc)
  rw [List.append_nil] at hlex
  have hgo : mpfrLex ((d0 :: ds').map charOfDigit) =
      some (false, d0 :: ds', [], 0) := by
    rw [mpfrLex]
    case x =>
      intro t1 ht
      rw [List.map_cons] at ht
      exact ((charOfDigit_spec d0 hd0).2.2.1) (List.head_eq_of_cons_eq ht)
    case x_1 =>
      intro t1 ht
      rw [List.map_cons] at ht
      exact (charOfDigit_ne_plus d0 hd0) (List.head_eq_of_cons_eq ht)
    dsimp only
    rw [hlex]
    simp
  have hgoneg : mpfrLex ('-' :: (d0 :: ds').map charOfDigit) =
      some (true, d0 :: ds', [], 0) := by
    rw [mpfrLex]
    dsimp only
    rw [hlex]
    simp
  constructor
  · rw [mpfrStrValue, hgo]
    simp [numeralVal, fracVal]
  · rw [mpfrStrValue, hgoneg]
    simp [numeralVal, fracVal]

theorem mpfrStrValue_dot (I F : List ℕ) (hne : I ≠ [])
    (hI : ∀ d ∈ I, d < 32) (hF : ∀ d ∈ F, d < 32) :
    mpfrStrValue (I.map charOfDigit ++ '.' :: F.map charOfDigit) =
      some ((intVal I : ℚ) + fracVal F) ∧
      mpfrStrValue ('-' :: (I.map charOfDigit ++ '.' :: F.map charOfDigit)) =
      some (-((intVal I : ℚ) + fracVal F)) := by
  rcases I with _ | ⟨d0, I'⟩
  · exact absurd rfl hne
  have hd0 : d0 < 32 := hI d0 (by simp)
  have hlex : lexDigits ((d0 :: I').map charOfDigit ++ '.' :: F.map charOfDigit)
      = (d0 :: I', '.' :: F.map charOfDigit) :=
    lexDigits_map_append _ _ hI (fun c hc => by
      simp only [List.head?_cons, Option.some.injEq] at hc
      rw [← hc]
      decide)
  have hlex2 : lexDigits (F.map charOfDigit) = (F, []) := by
    have h := lexDigits_map_append F [] hF (fun c hc => by simp at hc)
    simpa using h
  have hgo : mpfrLex ((d0 :: I').map charOfDigit ++ '.' :: F.map charOfDigit) =
      some (false, d0 :: I', F, 0) := by
    rw [mpfrLex]
    case x =>
      intro t1 ht
      rw [List.map_cons, List.cons_append] at ht
      exact ((charOfDigit_spec d0 hd0).2.2.1) (List.head_eq_of_cons_eq ht)
    case x_1 =>
      intro t1 ht
      rw [List.map_cons, List.cons_append] at ht
      exact (charOfDigit_ne_plus d0 hd0) (List.head_eq_of_cons_eq ht)
    dsimp only
    rw [hlex]
    simp [hlex2]
  have hgoneg : mpfrLex ('-' :: ((d0 :: I').map charOfDigit ++
      '.' :: F.map charOfDigit)) = some (true, d0 :: I', F, 0) := by
    rw [mpfrLex]
    dsimp only
    rw [hlex]
    simp [hlex2]
  constructor
  · rw [mpfrStrValue, hgo]
    simp [numeralVal]
  · rw [mpfrStrValue, hgoneg]
    simp [numeralVal]

/-! ### Trailing-zero stripping of formatted numerals -/

theorem dropWhile_eq_self_head_ne (l : List Char) (c : Char)
    (h : ∀ x, l.head? = some x → x ≠ c) :
    l.dropWhile (fun y => y = c) = l := by
  rcases l with _ | ⟨x, xs⟩
  · rfl
  · exact List.dropWhile_cons_of_neg (by simpa using h x rfl)

theorem rstripChar_eq_self (s : List Char) (c : Char)
    (h : s.getLast? ≠ some c) : PyCommon.rstripChar s c = s := by
  rw [PyCommon.rstripChar, dropWhile_eq_self_head_ne, List.reverse_reverse]
  intro x hx hxc
  apply h
  rw [← List.head?_reverse, hx, hxc]

theorem dropWhile_zero_map (L : List ℕ) (R : List Char)
    (hL : ∀ d ∈ L, d < 32) :
    (L.map charOfDigit ++ '.' :: R).dropWhile (fun c => c = '0') =
      (L.dropWhile (fun d => d = 0)).map charOfDigit ++ '.' :: R := by
  induction L with
  | nil =>
    simp only [List.map_nil, List.nil_append, List.dropWhile_nil]
    rw [List.dropWhile_cons_of_neg (by decide)]
  | cons d L ih =>
    have hd32 : d < 32 := hL d (by simp)
    have hih := ih (fun x hx => hL x (by simp [hx]))
    by_cases hd : d = 0
    · subst hd
      rw [List.map_cons, List.cons_append, charOfDigit_zero,
        List.dropWhile_cons_of_pos (by decide),
        List.dropWhile_cons_of_pos (by decide)]
      exact hih
    · have hc : charOfDigit d ≠ '0' := by
        intro hcon
        exact hd (((charOfDigit_spec d hd32).2.2.2.2).mp hcon)
      rw [List.map_cons, List.cons_append,
        List.dropWhile_cons_of_neg (by simpa using hc),
        List.dropWhile_cons_of_neg (by simpa using hd)]
      simp

theorem getLast?_sign_map_ne_dot (sign : List Char) (I : List ℕ) :
    I ≠ [] → (∀ d ∈ I, d < 32) →
      (sign ++ I.map charOfDigit).getLast? ≠ some '.' := by
  induction I using List.reverseRecOn with
  | nil => intro hne _; exact absurd rfl hne
  | append_singleton xs d _ =>
    intro _ hI
    rw [show sign ++ (xs ++ [d]).map charOfDigit =
      (sign ++ xs.map charOfDigit) ++ [charOfDigit d] by simp]
    rw [List.getLast?_concat]
    intro hcon
    have hd : d < 32 := hI d (by simp)
    exact ((charOfDigit_spec d hd).2.1) (Option.some.inj hcon)

theorem remove_trailing_zeros_no_dot (s : List Char) (h : '.' ∉ s) :
    PyCommon.remove_trailing_zeros s = s := by
  rw [PyCommon.remove_trailing_zeros, if_neg h]

theorem remove_trailing_zeros_dot (A : List Char) (B : List ℕ)
    (hB : ∀ d ∈ B, d < 32) (hA : A.getLast? ≠ some '.') :
    PyCommon.remove_trailing_zeros (A ++ '.' :: B.map charOfDigit) =
      if trimZeros B = [] then A
      else A ++ '.' :: (trimZeros B).map charOfDigit := by
  have hdot : '.' ∈ A ++ '.' :: B.map charOfDigit := by simp
  rw [PyCommon.remove_trailing_zeros, if_pos hdot]
  have h0 : PyCommon.rstripChar (A ++ '.' :: B.map charOfDigit) '0' =
      A ++ '.' :: (trimZeros B).map charOfDigit := by
    rw [PyCommon.rstripChar, List.reverse_append, List.reverse_cons]
    rw [show (B.map charOfDigit).reverse ++ ['.'] ++ A.reverse =
      B.reverse.map charOfDigit ++ '.' :: A.reverse by
        rw [List.map_reverse]; simp]
    rw [dropWhile_zero_map B.reverse A.reverse
      (fun d hd => hB d (List.mem_reverse.mp hd))]
    rw [List.reverse_append, List.reverse_cons, List.reverse_reverse]
    rw [trimZeros, List.map_reverse]
    simp
  rw [h0]
  split_ifs with htrim
  · rw [htrim, List.map_nil]
    rw [PyCommon.rstripChar, List.reverse_append]
    simp only [List.reverse_cons, List.reverse_nil, List.nil_append,
      List.singleton_append]
    rw [List.dropWhile_cons_of_pos (by decide)]
    rw [dropWhile_eq_self_head_ne _ _ (fun x hx hxc => hA (by
      rw [← List.head?_reverse, hx, hxc]))]
    exact List.reverse_reverse A
  · apply rstripChar_eq_self
    have h2 := getLast?_sign_map_ne_dot (A ++ ['.']) (trimZeros B) htrim
      (fun d hd => hB d (mem_trimZeros B d hd))
    rw [List.append_assoc] at h2
    simpa using h2

/-! ### Exact representability at a binary precision -/

theorem zpow32_eq (k : ℤ) : (32 : ℚ) ^ k = (2 : ℚ) ^ (5 * k) := by
  rw [show (32 : ℚ) = (2 : ℚ) ^ (5 : ℤ) by norm_num, ← zpow_mul]

theorem abs_repr (m e : ℤ) :
    |(m : ℚ) * 2 ^ e| = (m.natAbs : ℚ) * 2 ^ e := by
  rw [abs_mul, abs_of_pos (show (0 : ℚ) < 2 ^ e by positivity),
    Int.cast_natAbs, Int.cast_abs]

theorem abs_repr_lt (P : ℕ) (m e : ℤ) (hm : m.natAbs < 2 ^ P) :
    |(m : ℚ) * 2 ^ e| < (2 : ℚ) ^ ((P : ℤ) + e) := by
  rw [abs_repr, zpow_add₀ (by norm_num : (2 : ℚ) ≠ 0)]
  have hmq : ((m.natAbs : ℚ)) < (2 : ℚ) ^ ((P : ℤ)) := by
    rw [show ((P : ℤ)) = ((P : ℕ) : ℤ) from rfl, zpow_natCast]
    exact_mod_cast hm
  have h2e : (0 : ℚ) < (2 : ℚ) ^ e := by positivity
  exact mul_lt_mul_of_pos_right hmq h2e

/-- A nonzero value with a `P`-bit significand is the MPFR rounding
fixed point: the rounding scale divides the value exactly. -/
theorem roundPrec_eq_self (P : ℕ) (m e : ℤ) (hm : m.natAbs < 2 ^ P) :
    roundPrec P ((m : ℚ) * 2 ^ e) = (m : ℚ) * 2 ^ e := by
  by_cases hm0 : m = 0
  · subst hm0; simp [roundPrec]
  have hvne : (m : ℚ) * 2 ^ e ≠ 0 :=
    mul_ne_zero (by exact_mod_cast hm0) (zpow_ne_zero e (by norm_num))
  simp only [roundPrec, if_neg hvne]
  set v : ℚ := (m : ℚ) * 2 ^ e with hv
  set k : ℤ := ratLog 2 |v| with hk
  obtain ⟨hl, hu⟩ := ratLog_spec 2 |v| (by norm_num) (abs_pos.mpr hvne)
  push_cast at hl hu
  have h2 : |v| < (2 : ℚ) ^ ((P : ℤ) + e) := abs_repr_lt P m e hm
  have hkle : k ≤ (P : ℤ) - 1 + e := by
    by_contra hc
    push_neg at hc
    have hmono := zpow_le_zpow_right₀ (by norm_num : (1 : ℚ) ≤ 2)
      (show (P : ℤ) + e ≤ k by omega)
    linarith
  set s : ℤ := k - ((P : ℤ) - 1) with hs
  have hdiv : v / (2 : ℚ) ^ s = ((m * 2 ^ (e - s).toNat : ℤ) : ℚ) := by
    push_cast
    rw [← zpow_natCast (2 : ℚ) ((e - s).toNat),
      Int.toNat_of_nonneg (show (0 : ℤ) ≤ e - s by omega)]
    rw [hv, div_eq_iff (zpow_ne_zero s (by norm_num : (2 : ℚ) ≠ 0))]
    rw [mul_assoc, ← zpow_add₀ (by norm_num : (2 : ℚ) ≠ 0)]
    congr 2
    omega
  rw [hdiv, round_intCast, ← hdiv]
  exact div_mul_cancel₀ v (zpow_ne_zero s (by norm_num : (2 : ℚ) ≠ 0))

/-- A nonzero `P`-bit value's `precDigits P` base-32 digits form an
integer in the canonical digit window: the digit budget of both
converters always covers the full significand exactly. -/
theorem repr_digits_exists (P : ℕ) (m e : ℤ) (hP : 1 ≤ P) (hm0 : m ≠ 0)
    (hm : m.natAbs < 2 ^ P) :
    ∃ N : ℕ, ∃ E : ℤ,
      ((N : ℚ)) = |(m : ℚ) * 2 ^ e| * (32 : ℚ) ^ ((precDigits P : ℤ) - E) ∧
      32 ^ (precDigits P - 1) ≤ N ∧ N < 32 ^ precDigits P := by
  set n := precDigits P with hn
  have hn5 : (P : ℤ) + 5 ≤ 5 * (n : ℤ) := by
    rw [hn, precDigits]
    push_cast
    omega
  set v : ℚ := (m : ℚ) * 2 ^ e with hv
  have hvne : v ≠ 0 :=
    mul_ne_zero (by exact_mod_cast hm0) (zpow_ne_zero e (by norm_num))
  have hvpos : 0 < |v| := abs_pos.mpr hvne
  set E : ℤ := ratLog 32 |v| + 1 with hE
  obtain ⟨hl, hu⟩ := ratLog_spec 32 |v| (by norm_num) hvpos
  push_cast at hl hu
  have hl' : (32 : ℚ) ^ (E - 1) ≤ |v| := by
    rw [show E - 1 = ratLog 32 |v| by omega]
    exact hl
  have hu' : |v| < (32 : ℚ) ^ E := hu
  -- 2^(5E - 5) ≤ |v| < 2^(P + e) forces 5E ≤ P + e + 4
  have h2 : |v| < (2 : ℚ) ^ ((P : ℤ) + e) := abs_repr_lt P m e hm
  have hEle : 5 * E ≤ (P : ℤ) + e + 4 := by
    by_contra hc
    push_neg at hc
    have hmono := zpow_le_zpow_right₀ (by norm_num : (1 : ℚ) ≤ 2)
      (show (P : ℤ) + e ≤ 5 * (E - 1) by omega)
    rw [zpow32_eq] at hl'
    linarith
  have hK : (0 : ℤ) ≤ e + 5 * (n : ℤ) - 5 * E := by omega
  have hcast : ((m.natAbs * 2 ^ (e + 5 * (n : ℤ) - 5 * E).toNat : ℕ) : ℚ)
      = |v| * (32 : ℚ) ^ ((n : ℤ) - E) := by
    push_cast
    rw [← zpow_natCast (2 : ℚ) ((e + 5 * (n : ℤ) - 5 * E).toNat),
      Int.toNat_of_nonneg hK]
    rw [abs_repr, zpow32_eq, mul_assoc, ← zpow_add₀
      (by norm_num : (2 : ℚ) ≠ 0)]
    congr 2
    ring
  have h32pos : (0 : ℚ) < (32 : ℚ) ^ ((n : ℤ) - E) := by positivity
  refine ⟨m.natAbs * 2 ^ (e + 5 * (n : ℤ) - 5 * E).toNat, E, hcast, ?_, ?_⟩
  · have hq : (32 : ℚ) ^ ((n : ℤ) - 1) ≤
        ((m.natAbs * 2 ^ (e + 5 * (n : ℤ) - 5 * E).toNat : ℕ) : ℚ) := by
      rw [hcast]
      calc (32 : ℚ) ^ ((n : ℤ) - 1)
          = (32 : ℚ) ^ (E - 1) * (32 : ℚ) ^ ((n : ℤ) - E) := by
            rw [← zpow_add₀ (by norm_num : (32 : ℚ) ≠ 0)]
            congr 1
            ring
        _ ≤ |v| * (32 : ℚ) ^ ((n : ℤ) - E) :=
            mul_le_mul_of_nonneg_right hl' (le_of_lt h32pos)
    have hn1 : 1 ≤ n := by
      rw [hn, precDigits]; omega
    have hqq : (((32 : ℕ) ^ (n - 1) : ℕ) : ℚ) ≤
        ((m.natAbs * 2 ^ (e + 5 * (n : ℤ) - 5 * E).toNat : ℕ) : ℚ) := by
      rw [show (((32 : ℕ) ^ (n - 1) : ℕ) : ℚ) = (32 : ℚ) ^ ((n : ℤ) - 1) by
        push_cast
        rw [← zpow_natCast (32 : ℚ) (n - 1)]
        congr 1
        omega]
      exact hq
    exact_mod_cast hqq
  · have hq : ((m.natAbs * 2 ^ (e + 5 * (n : ℤ) - 5 * E).toNat : ℕ) : ℚ) <
        (32 : ℚ) ^ ((n : ℤ)) := by
      rw [hcast]
      calc |v| * (32 : ℚ) ^ ((n : ℤ) - E)
          < (32 : ℚ) ^ E * (32 : ℚ) ^ ((n : ℤ) - E) :=
            mul_lt_mul_of_pos_right hu' h32pos
        _ = (32 : ℚ) ^ ((n : ℤ)) := by
            rw [← zpow_add₀ (by norm_num : (32 : ℚ) ≠ 0)]
            congr 1
            ring
    have hqq : ((m.natAbs * 2 ^ (e + 5 * (n : ℤ) - 5 * E).toNat : ℕ) : ℚ) <
        (((32 : ℕ) ^ n : ℕ) : ℚ) := by
      rw [show (((32 : ℕ) ^ n : ℕ) : ℚ) = (32 : ℚ) ^ ((n : ℤ)) by
        push_cast
        rw [← zpow_natCast (32 : ℚ) n]]
      exact hq
    exact_mod_cast hqq

/-- The MPFR digit extraction on an exactly representable value returns
precisely the base-32 digits of the canonical integer `N` with the
canonical exponent: no rounding and no renormalisation occurs. -/
theorem mpfrGetStr32_eq_of_repr (v : ℚ) (n N : ℕ) (E : ℤ) (hv : v ≠ 0)
    (hNE : (N : ℚ) = |v| * (32 : ℚ) ^ ((n : ℤ) - E))
    (hlow : 32 ^ (n - 1) ≤ N) (hhigh : N < 32 ^ n) (hn : 1 ≤ n) :
    mpfrGetStr32 v n = (digitsBE n N, E) := by
  have hvpos : 0 < |v| := abs_pos.mpr hv
  have hNlow : (32 : ℚ) ^ ((n : ℤ) - 1) ≤ (N : ℚ) := by
    rw [show (32 : ℚ) ^ ((n : ℤ) - 1) = (((32 : ℕ) ^ (n - 1) : ℕ) : ℚ) by
      push_cast
      rw [← zpow_natCast (32 : ℚ) (n - 1)]
      congr 1
      omega]
    exact_mod_cast hlow
  have hNhigh : (N : ℚ) < (32 : ℚ) ^ ((n : ℤ)) := by
    rw [show (32 : ℚ) ^ ((n : ℤ)) = (((32 : ℕ) ^ n : ℕ) : ℚ) by
      push_cast
      rw [← zpow_natCast (32 : ℚ) n]]
    exact_mod_cast hhigh
  have h32 : (0 : ℚ) < (32 : ℚ) ^ (E - (n : ℤ)) := by positivity
  have hVN : |v| = (N : ℚ) * (32 : ℚ) ^ (E - (n : ℤ)) := by
    rw [hNE, mul_assoc, ← zpow_add₀ (by norm_num : (32 : ℚ) ≠ 0)]
    simp
  have hbr1 : (32 : ℚ) ^ (E - 1) ≤ |v| := by
    rw [hVN, show E - 1 = ((n : ℤ) - 1) + (E - (n : ℤ)) by ring,
      zpow_add₀ (by norm_num : (32 : ℚ) ≠ 0)]
    exact mul_le_mul_of_nonneg_right hNlow (le_of_lt h32)
  have hbr2 : |v| < (32 : ℚ) ^ E := by
    rw [hVN]
    calc (N : ℚ) * (32 : ℚ) ^ (E - (n : ℤ))
        < (32 : ℚ) ^ ((n : ℤ)) * (32 : ℚ) ^ (E - (n : ℤ)) :=
          mul_lt_mul_of_pos_right hNhigh h32
      _ = (32 : ℚ) ^ E := by
          rw [← zpow_add₀ (by norm_num : (32 : ℚ) ≠ 0)]
          congr 1
          ring
  have hrat : ratLog 32 |v| = E - 1 :=
    ratLog_eq_of 32 |v| (E - 1) (by norm_num) hvpos hbr1
      (by rw [sub_add_cancel]; exact hbr2)
  simp only [mpfrGetStr32, hrat, sub_add_cancel, ← hNE, round_natCast,
    Int.toNat_natCast]
  rw [if_neg (by omega)]

/-- The leading digit of the canonical digit block is nonzero. -/
theorem digitsBE_head_ne_zero (n N : ℕ) (hn : 1 ≤ n)
    (hlow : 32 ^ (n - 1) ≤ N) (hhigh : N < 32 ^ n) :
    ∀ x, (digitsBE n N).head? = some x → x ≠ 0 := by
  intro x hx
  rw [digitsBE_head? n N hn] at hx
  obtain rfl := Option.some.inj hx
  have hp : 0 < 32 ^ (n - 1) := Nat.pos_pow_of_pos _ (by norm_num)
  have h1 : 1 ≤ N / 32 ^ (n - 1) := (Nat.one_le_div_iff hp).mpr hlow
  have h2 : N / 32 ^ (n - 1) < 32 := by
    rw [Nat.div_lt_iff_lt_mul hp]
    calc N < 32 ^ n := hhigh
      _ = 32 * 32 ^ (n - 1) := by
        rw [← pow_succ']
        congr 1
        omega
  rw [Nat.mod_eq_of_lt h2]
  omega

/-- The py_common encoder output of an exactly representable nonzero
value reads back, under the MPFR numeral grammar, as exactly that
value: the digit block is exact, and the radix-point layout plus
trailing-zero stripping preserve the denoted value. -/
theorem mpfr_to_base32_value (v : ℚ) (n N : ℕ) (E : ℤ) (hv : v ≠ 0)
    (hn : 1 ≤ n)
    (hNE : (N : ℚ) = |v| * (32 : ℚ) ^ ((n : ℤ) - E))
    (hlow : 32 ^ (n - 1) ≤ N) (hhigh : N < 32 ^ n) :
    mpfrStrValue (PyCommon.mpfr_to_base32 v n) = some v := by
  have h32ne : (32 : ℚ) ≠ 0 := by norm_num
  have hstr := mpfrGetStr32_eq_of_repr v n N E hv hNE hlow hhigh hn
  have hlen : (digitsBE n N).length = n := digitsBE_length n N
  set ds := digitsBE n N with hds
  have hdlt : ∀ d ∈ ds, d < 32 := fun d hd => digitsBE_lt n N d hd
  have hival : intVal ds = N := intVal_digitsBE n N hhigh
  have hN1 : 1 ≤ N :=
    le_trans (Nat.one_le_pow _ _ (by norm_num)) hlow
  have hdsne : ds ≠ [] := by
    intro hcon
    rw [hcon] at hlen
    simp at hlen
    omega
  have htzne : trimZeros ds ≠ [] := by
    intro hcon
    have hz := (trimZeros_eq_nil_iff ds).mp hcon
    have h0 : intVal ds = 0 := (intVal_eq_zero_iff ds).mpr hz
    omega
  have hVN : |v| = (N : ℚ) * (32 : ℚ) ^ (E - (n : ℤ)) := by
    rw [hNE, mul_assoc, ← zpow_add₀ h32ne]
    simp
  simp only [PyCommon.mpfr_to_base32, if_neg hv, hstr]
  set sgn : List Char := if v < 0 then ['-'] else [] with hsgn
  have hfinish : ∀ core : List Char,
      PyCommon.remove_trailing_zeros
        (sgn ++ PyCommon.layoutB32 (ds.map charOfDigit) E) = sgn ++ core →
      mpfrStrValue core = some |v| →
      mpfrStrValue ('-' :: core) = some (-|v|) →
      mpfrStrValue (PyCommon.remove_trailing_zeros
        (sgn ++ PyCommon.layoutB32 (ds.map charOfDigit) E)) = some v := by
    intro core hstrip hpos hneg
    rw [hstrip]
    rcases lt_or_gt_of_ne hv with hv0 | hv0
    · rw [show sgn = ['-'] from hsgn.trans (if_pos hv0)]
      show mpfrStrValue ('-' :: core) = some v
      rw [hneg, abs_of_neg hv0]
      simp
    · rw [show sgn = [] from hsgn.trans (if_neg (not_lt.mpr (le_of_lt hv0)))]
      show mpfrStrValue core = some v
      rw [hpos, abs_of_pos hv0]
  by_cases hE1 : 0 < E
  · by_cases hE2 : ((ds.map charOfDigit).length : ℤ) ≤ E
    · -- all digits land before the radix point, padded with zeros
      set k : ℕ := (E - (n : ℤ)).toNat with hk
      have hnE : (n : ℤ) ≤ E := by
        rw [List.length_map, hlen] at hE2
        exact hE2
      have hkE : ((k : ℕ) : ℤ) = E - (n : ℤ) :=
        Int.toNat_of_nonneg (by omega)
      have hlay : PyCommon.layoutB32 (ds.map charOfDigit) E =
          (ds ++ List.replicate k 0).map charOfDigit := by
        rw [PyCommon.layoutB32, if_pos hE1, if_pos hE2]
        rw [List.map_append, List.map_replicate, charOfDigit_zero,
          List.length_map, hlen]
      have hadlt : ∀ d ∈ ds ++ List.replicate k 0, d < 32 := by
        intro d hd
        rcases List.mem_append.mp hd with h2 | h2
        · exact hdlt d h2
        · rw [List.eq_of_mem_replicate h2]
          norm_num
      have hnodot : '.' ∉ sgn ++ (ds ++ List.replicate k 0).map charOfDigit := by
        intro hmem
        rcases List.mem_append.mp hmem with h | h
        · rw [hsgn] at h
          split_ifs at h <;> simp at h
        · obtain ⟨d, hd, hdc⟩ := List.mem_map.mp h
          exact ((charOfDigit_spec d (hadlt d hd)).2.1) hdc
      have hane : ds ++ List.replicate k 0 ≠ [] := by
        intro hcon
        exact hdsne (List.append_eq_nil.mp hcon).1
      obtain ⟨hpos, hneg⟩ := mpfrStrValue_digits (ds ++ List.replicate k 0)
        hane hadlt
      have hvalA : ((intVal (ds ++ List.replicate k 0) : ℕ) : ℚ) = |v| := by
        rw [intVal_append, intVal_replicate, List.length_replicate, hival,
          hVN]
        push_cast
        rw [← zpow_natCast (32 : ℚ) k, hkE]
        ring
      refine hfinish ((ds ++ List.replicate k 0).map charOfDigit) ?_ ?_ ?_
      · rw [hlay, remove_trailing_zeros_no_dot _ hnodot]
      · rw [hpos, hvalA]
      · rw [hneg, hvalA]
    · -- the radix point splits the digit block
      set T : ℕ := E.toNat with hT
      have hTE : ((T : ℕ) : ℤ) = E := Int.toNat_of_nonneg (by omega)
      have hTn : T < n := by
        rw [List.length_map, hlen] at hE2
        omega
      have hT1 : 1 ≤ T := by omega
      have hlay : PyCommon.layoutB32 (ds.map charOfDigit) E =
          (ds.take T).map charOfDigit ++ '.' :: (ds.drop T).map charOfDigit := by
        rw [PyCommon.layoutB32, if_pos hE1, if_neg hE2]
        rw [← List.map_take, ← List.map_drop]
      have hIlen : (ds.take T).length = T := by
        rw [List.length_take, hlen]
        omega
      have hIne : ds.take T ≠ [] := by
        intro hcon
        rw [hcon] at hIlen
        simp at hIlen
        omega
      have hIlt : ∀ d ∈ ds.take T, d < 32 :=
        fun d hd => hdlt d ((List.take_sublist T ds).mem hd)
      have hFlt : ∀ d ∈ ds.drop T, d < 32 :=
        fun d hd => hdlt d ((List.drop_sublist T ds).mem hd)
      have hsplit : N = intVal (ds.take T) * 32 ^ (n - T) +
          intVal (ds.drop T) := by
        conv_lhs => rw [← hival, ← List.take_append_drop T ds]
        rw [intVal_append, List.length_drop, hlen]
      have hAlast := getLast?_sign_map_ne_dot sgn (ds.take T) hIne hIlt
      have hstrip0 := remove_trailing_zeros_dot
        (sgn ++ (ds.take T).map charOfDigit) (ds.drop T) hFlt hAlast
      rw [List.append_assoc] at hstrip0
      have h32p : (0 : ℚ) < (32 : ℚ) ^ ((n - T : ℕ)) := by positivity
      by_cases htF : trimZeros (ds.drop T) = []
      · -- the whole fraction strips away
        have hF0 : intVal (ds.drop T) = 0 :=
          (intVal_eq_zero_iff _).mpr ((trimZeros_eq_nil_iff _).mp htF)
        obtain ⟨hpos, hneg⟩ := mpfrStrValue_digits (ds.take T) hIne hIlt
        have hvalB : ((intVal (ds.take T) : ℕ) : ℚ) = |v| := by
          rw [hVN]
          have hNq : ((N : ℕ) : ℚ) =
              (intVal (ds.take T) : ℚ) * (32 : ℚ) ^ ((n - T : ℕ)) := by
            rw [hsplit, hF0]
            push_cast
            ring
          rw [hNq, ← zpow_natCast (32 : ℚ) (n - T), mul_assoc,
            ← zpow_add₀ h32ne,
            show ((n - T : ℕ) : ℤ) + (E - (n : ℤ)) = 0 by omega]
          simp
        refine hfinish ((ds.take T).map charOfDigit) ?_ ?_ ?_
        · rw [hlay, hstrip0, if_pos htF]
        · rw [hpos, hvalB]
        · rw [hneg, hvalB]
      · -- a nonempty fraction remains
        have htFlt : ∀ d ∈ trimZeros (ds.drop T), d < 32 :=
          fun d hd => hFlt d (mem_trimZeros _ _ hd)
        obtain ⟨hpos, hneg⟩ := mpfrStrValue_dot (ds.take T)
          (trimZeros (ds.drop T)) hIne hIlt htFlt
        have hvalB : ((intVal (ds.take T) : ℕ) : ℚ) +
            fracVal (trimZeros (ds.drop T)) = |v| := by
          rw [fracVal_trimZeros, fracVal_eq_div, List.length_drop, hlen,
            hVN]
          have hEn : E - (n : ℤ) = -(((n - T : ℕ) : ℤ)) := by omega
          rw [hEn, zpow_neg, zpow_natCast]
          have hNq : ((N : ℕ) : ℚ) =
              (intVal (ds.take T) : ℚ) * (32 : ℚ) ^ ((n - T : ℕ)) +
              (intVal (ds.drop T) : ℚ) := by
            rw [hsplit]
            push_cast
            ring
          rw [hNq]
          field_simp
        refine hfinish ((ds.take T).map charOfDigit ++
          '.' :: (trimZeros (ds.drop T)).map charOfDigit) ?_ ?_ ?_
        · rw [hlay, hstrip0, if_neg htF, List.append_assoc]
        · rw [hpos, hvalB]
        · rw [hneg, hvalB]
  · -- nonpositive exponent: leading zeros after the radix point
    set k : ℕ := (-E).toNat with hk
    have hkE : ((k : ℕ) : ℤ) = -E := Int.toNat_of_nonneg (by omega)
    set B : List ℕ := List.replicate k 0 ++ ds with hB
    have hBlt : ∀ d ∈ B, d < 32 := by
      intro d hd
      rw [hB] at hd
      rcases List.mem_append.mp hd with h2 | h2
      · rw [List.eq_of_mem_replicate h2]
        norm_num
      · exact hdlt d h2
    have htzB : trimZeros B ≠ [] := by
      rw [hB, trimZeros_append_left _ _ htzne]
      intro hcon
      exact htzne (List.append_eq_nil.mp hcon).2
    have hlay : PyCommon.layoutB32 (ds.map charOfDigit) E =
        [0].map charOfDigit ++ '.' :: B.map charOfDigit := by
      rw [PyCommon.layoutB32, if_neg hE1, hB]
      by_cases hE0 : E = 0
      · rw [if_pos hE0]
        have hk0 : k = 0 := by omega
        rw [hk0]
        simp
        decide
      · rw [if_neg hE0]
        rw [List.map_append, List.map_replicate, charOfDigit_zero]
        simp [hk]
        decide
    have hAlast := getLast?_sign_map_ne_dot sgn [0] (by simp)
      (by intro d hd; simp at hd; omega)
    have hstrip0 := remove_trailing_zeros_dot
      (sgn ++ [0].map charOfDigit) B hBlt hAlast
    rw [List.append_assoc] at hstrip0
    have htBlt : ∀ d ∈ trimZeros B, d < 32 :=
      fun d hd => hBlt d (mem_trimZeros _ _ hd)
    obtain ⟨hpos, hneg⟩ := mpfrStrValue_dot [0] (trimZeros B) (by simp)
      (by intro d hd; simp at hd; omega) htBlt
    have hvalC : ((intVal [0] : ℕ) : ℚ) + fracVal (trimZeros B) = |v| := by
      rw [show intVal [0] = 0 by simp [intVal], fracVal_trimZeros, hB,
        fracVal_append, fracVal_replicate, List.length_replicate,
        fracVal_eq_div, hival, hlen, hVN]
      have hEn : E - (n : ℤ) = -(((n + k : ℕ) : ℤ)) := by omega
      rw [hEn, zpow_neg, zpow_natCast, pow_add]
      have hp1 : ((32 : ℚ) ^ (n : ℕ)) ≠ 0 := by positivity
      have hp2 : ((32 : ℚ) ^ (k : ℕ)) ≠ 0 := by positivity
      field_simp
    refine hfinish ([0].map charOfDigit ++
      '.' :: (trimZeros B).map charOfDigit) ?_ ?_ ?_
    · rw [hlay, hstrip0, if_neg htzB, List.append_assoc]
    · rw [hpos, hvalC]
    · rw [hneg, hvalC]

/-! ## Claim C1: codec round-trip law -/

/-- C1: codec round-trip law. For every supported precision `P ≥ 1` and
every `P`-bit representable value `v = m * 2^e` (significand `|m| < 2^P`),
decoding the encoding of `v` at precision `P` returns exactly `v`:
`parse_mpfr_base32 (decimal_to_mpfr_base32 v P) P = v`. On representable
values the rounding error implied by `P` bits is zero, so exact equality
is the round-trip law's content. -/
theorem C1_codec_roundtrip (P : ℕ) (m e : ℤ) (hP : 1 ≤ P)
    (hm : m.natAbs < 2 ^ P) :
    PyCommon.parse_mpfr_base32
      (String.mk (PyCommon.decimal_to_mpfr_base32 ((m : ℚ) * 2 ^ e) P)) P =
      some ((m : ℚ) * 2 ^ e) := by
  by_cases hm0 : m = 0
  · subst hm0
    simp only [Int.cast_zero, zero_mul]
    rw [show PyCommon.decimal_to_mpfr_base32 0 P = ['0'] by
      rw [PyCommon.decimal_to_mpfr_base32, PyCommon.mpfr_to_base32,
        if_pos rfl]]
    rw [PyCommon.parse_mpfr_base32]
    have h0 : mpfrStrValue (String.toList (String.mk ['0'])) = some 0 := by
      decide
    rw [h0]
    simp [roundPrec]
  · have hv : (m : ℚ) * 2 ^ e ≠ 0 :=
      mul_ne_zero (by exact_mod_cast hm0) (zpow_ne_zero e (by norm_num))
    obtain ⟨N, E, hNE, hlowN, hhighN⟩ := repr_digits_exists P m e hP hm0 hm
    have hn1 : 1 ≤ precDigits P := by rw [precDigits]; omega
    have hval := mpfr_to_base32_value ((m : ℚ) * 2 ^ e) (precDigits P) N E
      hv hn1 hNE hlowN hhighN
    rw [PyCommon.parse_mpfr_base32, PyCommon.decimal_to_mpfr_base32]
    have htl : String.toList (String.mk
        (PyCommon.mpfr_to_base32 ((m : ℚ) * 2 ^ e) (precDigits P))) =
        PyCommon.mpfr_to_base32 ((m : ℚ) * 2 ^ e) (precDigits P) := rfl
    rw [htl, hval]
    show some (roundPrec P ((m : ℚ) * 2 ^ e)) = some ((m : ℚ) * 2 ^ e)
    rw [roundPrec_eq_self P m e hm]

/-- Witness for C1 at `P = 4`, `v = 13 * 2^(-7) = 13/128`: the encoding
is `"0.38"` and it parses back to exactly `13/128`. -/
theorem C1_codec_roundtrip_witness :
    PyCommon.parse_mpfr_base32
      (String.mk (PyCommon.decimal_to_mpfr_base32
        (((13 : ℤ) : ℚ) * 2 ^ (-7 : ℤ)) 4)) 4 =
      some (((13 : ℤ) : ℚ) * 2 ^ (-7 : ℤ)) :=
  C1_codec_roundtrip 4 13 (-7) (by decide) (by decide)

/-! ### py_box_cal exponent search -/

theorem expUpAux_zero (fuel : ℕ) (temp : ℚ) (h : temp < 1) :
    PyBoxCal.expUpAux fuel temp = 0 := by
  cases fuel with
  | zero => rfl
  | succ f => rw [PyBoxCal.expUpAux, if_neg (by linarith)]

theorem expUpAux_spec : ∀ (fuel : ℕ) (temp : ℚ), (⌊temp⌋).toNat < fuel →
    1 ≤ temp →
    1 ≤ PyBoxCal.expUpAux fuel temp ∧
    (32 : ℚ) ^ ((PyBoxCal.expUpAux fuel temp : ℤ) - 1) ≤ temp ∧
    temp < (32 : ℚ) ^ ((PyBoxCal.expUpAux fuel temp : ℤ)) := by
  intro fuel
  induction fuel with
  | zero =>
    intro temp hf h1
    omega
  | succ fuel ih =>
    intro temp hf h1
    have h32 : (0 : ℚ) < 32 := by norm_num
    have h32ne : (32 : ℚ) ≠ 0 := by norm_num
    rw [PyBoxCal.expUpAux, if_pos h1]
    by_cases h2 : temp / 32 < 1
    · rw [expUpAux_zero fuel _ h2]
      have ht32 : temp < 32 := by
        rw [div_lt_one h32] at h2
        exact h2
      refine ⟨by omega, ?_, ?_⟩
      · rw [show ((0 + 1 : ℕ) : ℤ) - 1 = 0 by norm_num]
        simpa using h1
      · rw [show ((0 + 1 : ℕ) : ℤ) = 1 by norm_num]
        simpa using ht32
    · push_neg at h2
      have ht32 : (32 : ℚ) ≤ temp := by
        rw [le_div_iff₀ h32, one_mul] at h2
        exact h2
      have hfl : (⌊temp / 32⌋).toNat < fuel := by
        have hfl1 : (1 : ℤ) ≤ ⌊temp / 32⌋ :=
          Int.le_floor.mpr (by push_cast; linarith)
        have hq1 : (⌊temp / 32⌋ : ℚ) ≤ temp / 32 := Int.floor_le _
        have hq2 : temp - 1 < (⌊temp⌋ : ℚ) := Int.sub_one_lt_floor _
        have hq3 : temp / 32 ≤ temp - 31 := by linarith
        have hint : ⌊temp / 32⌋ < ⌊temp⌋ := by
          have : (⌊temp / 32⌋ : ℚ) < (⌊temp⌋ : ℚ) := by linarith
          exact_mod_cast this
        omega
      obtain ⟨hk1, hkl, hku⟩ := ih (temp / 32) hfl h2
      set K := PyBoxCal.expUpAux fuel (temp / 32) with hK
      have hKs : (32 : ℚ) ^ ((K : ℤ)) = (32 : ℚ) ^ ((K : ℤ) - 1) * 32 := by
        rw [← zpow_add_one₀ h32ne]
        congr 1
        ring
      have hKs2 : (32 : ℚ) ^ ((K : ℤ) + 1) = (32 : ℚ) ^ ((K : ℤ)) * 32 := by
        rw [← zpow_add_one₀ h32ne]
      refine ⟨by omega, ?_, ?_⟩
      · rw [show ((K + 1 : ℕ) : ℤ) - 1 = (K : ℤ) by push_cast; ring, hKs]
        have hkl' : (32 : ℚ) ^ ((K : ℤ) - 1) * 32 ≤ temp := by
          rw [← le_div_iff₀ h32]
          exact hkl
        exact hkl'
      · rw [show ((K + 1 : ℕ) : ℤ) = (K : ℤ) + 1 by push_cast; ring, hKs2]
        have hku' : temp < (32 : ℚ) ^ ((K : ℤ)) * 32 := by
          rw [← div_lt_iff₀ h32]
          exact hku
        exact hku'

theorem expDownAux_zero (fuel : ℕ) (temp : ℚ) (h : 1 ≤ temp) :
    PyBoxCal.expDownAux fuel temp = 0 := by
  cases fuel with
  | zero => rfl
  | succ f =>
    rw [PyBoxCal.expDownAux, if_neg (by
      intro hcon
      linarith [hcon.2])]

theorem expDownAux_spec : ∀ (fuel : ℕ) (temp : ℚ),
    (⌈1 / temp⌉).toNat < fuel → 0 < temp → temp < 1 →
    1 ≤ PyBoxCal.expDownAux fuel temp ∧
    (32 : ℚ) ^ (-(PyBoxCal.expDownAux fuel temp : ℤ)) ≤ temp ∧
    temp < (32 : ℚ) ^ (1 - (PyBoxCal.expDownAux fuel temp : ℤ)) := by
  intro fuel
  induction fuel with
  | zero =>
    intro temp hf h0 h1
    omega
  | succ fuel ih =>
    intro temp hf h0 h1
    have h32 : (0 : ℚ) < 32 := by norm_num
    have h32ne : (32 : ℚ) ≠ 0 := by norm_num
    rw [PyBoxCal.expDownAux, if_pos ⟨h0, h1⟩]
    by_cases h2 : 1 ≤ temp * 32
    · rw [expDownAux_zero fuel _ h2]
      refine ⟨by omega, ?_, ?_⟩
      · rw [show -((0 + 1 : ℕ) : ℤ) = -1 by norm_num]
        rw [zpow_neg, zpow_one]
        rw [inv_le_iff_one_le_mul₀ h32]
        linarith
      · rw [show (1 : ℤ) - ((0 + 1 : ℕ) : ℤ) = 0 by norm_num]
        simpa using h1
    · push_neg at h2
      have h0' : 0 < temp * 32 := by positivity
      have hx32 : (32 : ℚ) < 1 / temp := by
        rw [lt_div_iff₀ h0]
        linarith
      have hfl : (⌈1 / (temp * 32)⌉).toNat < fuel := by
        have htm : 1 / (temp * 32) = (1 / temp) / 32 := by
          field_simp
        have hq1 : (⌈(1 / temp) / 32⌉ : ℚ) < (1 / temp) / 32 + 1 :=
          Int.ceil_lt_add_one _
        have hq2 : (1 / temp : ℚ) ≤ (⌈1 / temp⌉ : ℚ) := Int.le_ceil _
        have hq3 : (1 / temp) / 32 + 1 ≤ 1 / temp := by
          have : (32 : ℚ) < 1 / temp := hx32
          linarith
        have hint : ⌈1 / (temp * 32)⌉ < ⌈1 / temp⌉ := by
          rw [htm]
          have : (⌈(1 / temp) / 32⌉ : ℚ) < (⌈1 / temp⌉ : ℚ) := by linarith
          exact_mod_cast this
        have hc1 : (1 : ℤ) ≤ ⌈1 / (temp * 32)⌉ :=
          Int.le_ceil_iff.mpr (by push_cast; positivity)
        omega
      obtain ⟨hk1, hkl, hku⟩ := ih (temp * 32) hfl h0' h2
      set K := PyBoxCal.expDownAux fuel (temp * 32) with hK
      refine ⟨by omega, ?_, ?_⟩
      · rw [show -((K + 1 : ℕ) : ℤ) = (-(K : ℤ)) - 1 by push_cast; ring]
        rw [zpow_sub₀ h32ne, zpow_one]
        rw [div_le_iff₀ h32]
        exact hkl
      · rw [show (1 : ℤ) - ((K + 1 : ℕ) : ℤ) = (1 - (K : ℤ)) - 1 by
          push_cast; ring]
        rw [zpow_sub₀ h32ne, zpow_one]
        rw [lt_div_iff₀ h32]
        exact hku

/-- The py_box_cal exponent search loops compute exactly the MPFR
exponent `ratLog + 1` of a positive value. -/
theorem findExp_eq (a : ℚ) (h0 : 0 < a) :
    PyBoxCal.findExp a = ratLog 32 a + 1 := by
  rw [PyBoxCal.findExp]
  split_ifs with h1
  · rw [PyBoxCal.expUpSteps]
    obtain ⟨hs1, hsl, hsu⟩ := expUpAux_spec ((⌊a⌋).toNat + 1) a (by omega) h1
    have hrl := ratLog_eq_of 32 a
      ((PyBoxCal.expUpAux ((⌊a⌋).toNat + 1) a : ℤ) - 1) (by norm_num) h0
      (by push_cast; exact hsl)
      (by push_cast; rw [sub_add_cancel]; exact hsu)
    omega
  · push_neg at h1
    rw [PyBoxCal.expDownSteps, if_pos h0]
    obtain ⟨hs1, hsl, hsu⟩ := expDownAux_spec ((⌈1 / a⌉).toNat + 1) a
      (by omega) h0 h1
    have hrl := ratLog_eq_of 32 a
      (-(PyBoxCal.expDownAux ((⌈1 / a⌉).toNat + 1) a : ℤ)) (by norm_num) h0
      (by push_cast; exact hsl)
      (by
        push_cast
        rw [show -(PyBoxCal.expDownAux ((⌈1 / a⌉).toNat + 1) a : ℤ) + 1 =
          1 - (PyBoxCal.expDownAux ((⌈1 / a⌉).toNat + 1) a : ℤ) by ring]
        exact hsu)
    omega

/-! ### py_box_cal digit generation -/

theorem dropWhile_eq_self_of_head {α : Type} (l : List α) (p : α → Bool)
    (h : ∀ x, l.head? = some x → p x = false) : l.dropWhile p = l := by
  rcases l with _ | ⟨x, xs⟩
  · rfl
  · exact List.dropWhile_cons_of_neg (by simp [h x rfl])

theorem trimZeros_cons (d : ℕ) (X : List ℕ) (h : trimZeros X ≠ []) :
    trimZeros (d :: X) = d :: trimZeros X := by
  have := trimZeros_append_left [d] X h
  simpa using this

theorem trimZeros_getLast_reverse_head (X : List ℕ) :
    (trimZeros X).reverse.dropWhile (fun d => d = 0) =
      (trimZeros X).reverse := by
  apply dropWhile_eq_self_of_head
  intro x hx
  rw [trimZeros, List.reverse_reverse] at hx
  exact head?_dropWhile_neg _ _ x hx

theorem popTrailingZeros_trimmed (X : List ℕ) (hne : trimZeros X ≠ []) :
    PyBoxCal.popTrailingZeros (trimZeros X) = trimZeros X := by
  rw [PyBoxCal.popTrailingZeros, trimZeros_getLast_reverse_head]
  rcases hrev : (trimZeros X).reverse with _ | ⟨a, t⟩
  · rw [List.reverse_eq_nil_iff] at hrev
    exact absurd hrev hne
  · show (a :: t).reverse = trimZeros X
    rw [← hrev, List.reverse_reverse]

/-- The truncating digit loop of the py_box_cal encoder, run on an
exact suffix value, emits exactly the suffix's digits up to (and
including) the last nonzero one: the early-exit and the `int`
truncation are both exact here. -/
theorem digitLoop_spec (E : ℤ) : ∀ (T : List ℕ) (i : ℕ), T ≠ [] →
    (∀ d ∈ T, d < 32) → intVal T ≠ 0 →
    PyBoxCal.digitLoop E
      ((intVal T : ℚ) * (32 : ℚ) ^ (E - (i : ℤ) - (T.length : ℤ))) i T.length
      = trimZeros T := by
  intro T
  induction T with
  | nil => intro i h; exact absurd rfl h
  | cons d T' ih =>
    intro i hne hlt hnz
    have h32ne : (32 : ℚ) ≠ 0 := by norm_num
    have hd32 : d < 32 := hlt d (by simp)
    have hT'lt : ∀ x ∈ T', x < 32 := fun x hx => hlt x (by simp [hx])
    have hscale_ne : (32 : ℚ) ^ (E - 1 - (i : ℤ)) ≠ 0 :=
      zpow_ne_zero _ h32ne
    have hLne : (32 : ℚ) ^ ((T'.length : ℤ)) ≠ 0 := zpow_ne_zero _ h32ne
    simp only [List.length_cons]
    have hdec : (intVal (d :: T') : ℚ) *
        (32 : ℚ) ^ (E - (i : ℤ) - ((T'.length + 1 : ℕ) : ℤ)) =
        (d : ℚ) * (32 : ℚ) ^ (E - 1 - (i : ℤ)) +
        (intVal T' : ℚ) * (32 : ℚ) ^ (E - 1 - (i : ℤ) - (T'.length : ℤ)) := by
      rw [show intVal (d :: T') = d * 32 ^ T'.length + intVal T' from rfl]
      push_cast
      rw [← zpow_natCast (32 : ℚ) T'.length, add_mul, mul_assoc,
        ← zpow_add₀ h32ne,
        show (T'.length : ℤ) + (E - (i : ℤ) - ((T'.length : ℤ) + 1)) =
          E - 1 - (i : ℤ) by ring,
        show E - (i : ℤ) - ((T'.length : ℤ) + 1) =
          E - 1 - (i : ℤ) - (T'.length : ℤ) by ring]
    have hfr0 : (0 : ℚ) ≤ (intVal T' : ℚ) / (32 : ℚ) ^ ((T'.length : ℤ)) := by
      positivity
    have hfr1 : (intVal T' : ℚ) / (32 : ℚ) ^ ((T'.length : ℤ)) < 1 := by
      rw [div_lt_one (by positivity)]
      rw [zpow_natCast]
      exact_mod_cast intVal_lt T' hT'lt
    have hquot : ((intVal (d :: T') : ℚ) *
        (32 : ℚ) ^ (E - (i : ℤ) - ((T'.length + 1 : ℕ) : ℤ))) /
        (32 : ℚ) ^ (E - 1 - (i : ℤ)) =
        (d : ℚ) + (intVal T' : ℚ) / (32 : ℚ) ^ ((T'.length : ℤ)) := by
      rw [hdec, add_div, mul_div_cancel_right₀ _ hscale_ne]
      congr 1
      rw [show E - 1 - (i : ℤ) - (T'.length : ℤ) =
        (E - 1 - (i : ℤ)) - (T'.length : ℤ) by ring, zpow_sub₀ h32ne]
      field_simp
      ring
    have hfloor : ⌊((intVal (d :: T') : ℚ) *
        (32 : ℚ) ^ (E - (i : ℤ) - ((T'.length + 1 : ℕ) : ℤ))) /
        (32 : ℚ) ^ (E - 1 - (i : ℤ))⌋ = ((d : ℕ) : ℤ) := by
      rw [hquot, Int.floor_eq_iff]
      constructor
      · push_cast
        linarith
      · push_cast
        linarith
    have hval' : (intVal (d :: T') : ℚ) *
        (32 : ℚ) ^ (E - (i : ℤ) - ((T'.length + 1 : ℕ) : ℤ)) -
        (d : ℚ) * (32 : ℚ) ^ (E - 1 - (i : ℤ)) =
        (intVal T' : ℚ) * (32 : ℚ) ^ (E - ((i + 1 : ℕ) : ℤ) -
          (T'.length : ℤ)) := by
      rw [hdec, show E - ((i + 1 : ℕ) : ℤ) - (T'.length : ℤ) =
        E - 1 - (i : ℤ) - (T'.length : ℤ) by push_cast; ring]
      ring
    have hziff : ((intVal T' : ℚ) *
        (32 : ℚ) ^ (E - ((i + 1 : ℕ) : ℤ) - (T'.length : ℤ)) = 0) ↔
        intVal T' = 0 := by
      rw [mul_eq_zero]
      constructor
      · intro h
        rcases h with h | h
        · exact_mod_cast h
        · exact absurd h (zpow_ne_zero _ h32ne)
      · intro h
        left
        exact_mod_cast h
    rw [PyBoxCal.digitLoop]
    rw [hfloor, Int.toNat_natCast, Nat.mod_eq_of_lt hd32, hval']
    split_ifs with hz
    · -- the remainder vanished: the tail digits are all zero
      have hT'0 : intVal T' = 0 := hziff.mp hz
      have hd0 : d ≠ 0 := by
        intro h0
        apply hnz
        rw [show intVal (d :: T') = d * 32 ^ T'.length + intVal T' from rfl,
          h0, hT'0]
        simp
      have hrep : T' = List.replicate T'.length 0 :=
        List.eq_replicate_of_mem
          (fun b hb => (intVal_eq_zero_iff T').mp hT'0 b hb)
      have htriv1 : trimZeros ([d] : List ℕ) = [d] := by
        have h1 : ([d] : List ℕ) = [] ++ [d] := by simp
        rw [h1, trimZeros_append_nonzero [] d hd0]
      have htriv : trimZeros (d :: T') = [d] := by
        conv_lhs => rw [hrep]
        rw [show d :: List.replicate T'.length 0 =
          [d] ++ List.replicate T'.length 0 by simp,
          trimZeros_append_replicate, htriv1]
      rw [htriv]
    · -- a nonzero tail remains: recurse
      have hT'nz : intVal T' ≠ 0 := fun h => hz (hziff.mpr h)
      have hT'ne : T' ≠ [] := by
        intro hcon
        rw [hcon] at hT'nz
        exact hT'nz rfl
      have htz' : trimZeros T' ≠ [] := by
        intro hcon
        exact hT'nz ((intVal_eq_zero_iff T').mpr
          ((trimZeros_eq_nil_iff T').mp hcon))
      rw [ih (i + 1) hT'ne hT'lt hT'nz, trimZeros_cons d T' htz']

/-! ### Agreement of the two encoders on representable values -/

theorem getLast?_append_right {α : Type} (X Y : List α) :
    Y ≠ [] → (X ++ Y).getLast? = Y.getLast? := by
  induction Y using List.reverseRecOn with
  | nil => intro h; exact absurd rfl h
  | append_singleton ys y _ =>
    intro _
    rw [← List.append_assoc, List.getLast?_concat, List.getLast?_concat]

theorem ratLog_eq_of_repr (v : ℚ) (n N : ℕ) (E : ℤ) (hv : v ≠ 0)
    (hNE : (N : ℚ) = |v| * (32 : ℚ) ^ ((n : ℤ) - E))
    (hlow : 32 ^ (n - 1) ≤ N) (hhigh : N < 32 ^ n) (hn : 1 ≤ n) :
    ratLog 32 |v| = E - 1 := by
  have hvpos : 0 < |v| := abs_pos.mpr hv
  have h32ne : (32 : ℚ) ≠ 0 := by norm_num
  have hNlow : (32 : ℚ) ^ ((n : ℤ) - 1) ≤ (N : ℚ) := by
    rw [show (32 : ℚ) ^ ((n : ℤ) - 1) = (((32 : ℕ) ^ (n - 1) : ℕ) : ℚ) by
      push_cast
      rw [← zpow_natCast (32 : ℚ) (n - 1)]
      congr 1
      omega]
    exact_mod_cast hlow
  have hNhigh : (N : ℚ) < (32 : ℚ) ^ ((n : ℤ)) := by
    rw [show (32 : ℚ) ^ ((n : ℤ)) = (((32 : ℕ) ^ n : ℕ) : ℚ) by
      push_cast
      rw [← zpow_natCast (32 : ℚ) n]]
    exact_mod_cast hhigh
  have h32 : (0 : ℚ) < (32 : ℚ) ^ (E - (n : ℤ)) := by positivity
  have hVN : |v| = (N : ℚ) * (32 : ℚ) ^ (E - (n : ℤ)) := by
    rw [hNE, mul_assoc, ← zpow_add₀ h32ne]
    simp
  have hbr1 : (32 : ℚ) ^ (E - 1) ≤ |v| := by
    rw [hVN, show E - 1 = ((n : ℤ) - 1) + (E - (n : ℤ)) by ring,
      zpow_add₀ h32ne]
    exact mul_le_mul_of_nonneg_right hNlow (le_of_lt h32)
  have hbr2 : |v| < (32 : ℚ) ^ E := by
    rw [hVN]
    calc (N : ℚ) * (32 : ℚ) ^ (E - (n : ℤ))
        < (32 : ℚ) ^ ((n : ℤ)) * (32 : ℚ) ^ (E - (n : ℤ)) :=
          mul_lt_mul_of_pos_right hNhigh h32
      _ = (32 : ℚ) ^ E := by
          rw [← zpow_add₀ h32ne]
          congr 1
          ring
  exact ratLog_eq_of 32 |v| (E - 1) (by norm_num) hvpos hbr1
    (by rw [sub_add_cancel]; exact hbr2)

/-- On an exactly representable nonzero value the two encoder
embeddings produce the same character string: the MPFR digit extraction
and the py_box_cal truncating loop emit the same digits (the latter
pre-trimmed of trailing zeros), and the two layout/stripping paths
coincide.  This is a statement about the exact-rational embeddings: on
the py_box_cal side it idealises the 100-significant-digit Decimal
context, so it transfers to the Python programs only on inputs whose
intermediates that context leaves exact; the claim-level statement
about the converters therefore confines itself to concrete inputs in
that exact regime. -/
theorem encoders_agree_repr (v : ℚ) (n N : ℕ) (E : ℤ) (hv : v ≠ 0)
    (hn : 1 ≤ n)
    (hNE : (N : ℚ) = |v| * (32 : ℚ) ^ ((n : ℤ) - E))
    (hlow : 32 ^ (n - 1) ≤ N) (hhigh : N < 32 ^ n) :
    PyCommon.mpfr_to_base32 v n = PyBoxCal.decimal_to_mpfr_base32 v n := by
  have h32ne : (32 : ℚ) ≠ 0 := by norm_num
  have hvpos : 0 < |v| := abs_pos.mpr hv
  have hstr := mpfrGetStr32_eq_of_repr v n N E hv hNE hlow hhigh hn
  have hrat := ratLog_eq_of_repr v n N E hv hNE hlow hhigh hn
  have hfe : PyBoxCal.findExp |v| = E := by
    rw [findExp_eq |v| hvpos, hrat]
    ring
  have hlen : (digitsBE n N).length = n := digitsBE_length n N
  set ds := digitsBE n N with hds
  have hdlt : ∀ d ∈ ds, d < 32 := fun d hd => digitsBE_lt n N d hd
  have hival : intVal ds = N := intVal_digitsBE n N hhigh
  have hN1 : 1 ≤ N := le_trans (Nat.one_le_pow _ _ (by norm_num)) hlow
  have hdsne : ds ≠ [] := by
    intro hcon
    rw [hcon] at hlen
    simp at hlen
    omega
  have htzne : trimZeros ds ≠ [] := by
    intro hcon
    have hz := (trimZeros_eq_nil_iff ds).mp hcon
    have h0 : intVal ds = 0 := (intVal_eq_zero_iff ds).mpr hz
    omega
  have hVN : |v| = (N : ℚ) * (32 : ℚ) ^ (E - (n : ℤ)) := by
    rw [hNE, mul_assoc, ← zpow_add₀ h32ne]
    simp
  have hdl : PyBoxCal.digitLoop E |v| 0 n = trimZeros ds := by
    have harg : |v| = (intVal ds : ℚ) *
        (32 : ℚ) ^ (E - ((0 : ℕ) : ℤ) - (ds.length : ℤ)) := by
      rw [hival, hlen, hVN,
        show E - ((0 : ℕ) : ℤ) - ((n : ℕ) : ℤ) = E - (n : ℤ) by
          push_cast; ring]
    calc PyBoxCal.digitLoop E |v| 0 n
        = PyBoxCal.digitLoop E ((intVal ds : ℚ) *
            (32 : ℚ) ^ (E - ((0 : ℕ) : ℤ) - (ds.length : ℤ))) 0 ds.length := by
          rw [← harg, hlen]
      _ = trimZeros ds := digitLoop_spec E ds 0 hdsne hdlt (by omega)
  have hpop : PyBoxCal.popTrailingZeros (PyBoxCal.digitLoop E |v| 0 n) =
      trimZeros ds := by
    rw [hdl, popTrailingZeros_trimmed ds htzne]
  obtain ⟨z, hzd⟩ := trimZeros_decomp ds
  set sgn : List Char := if v < 0 then ['-'] else [] with hsgn
  set ds' := trimZeros ds with hds'
  have hL'z : ds'.length + z = n := by
    have hc := congrArg List.length hzd
    rw [List.length_append, List.length_replicate, hlen] at hc
    omega
  have hlast : ∀ x, ds'.getLast? = some x → x ≠ 0 :=
    fun x hx => trimZeros_getLast_ne ds x hx
  have hd'lt : ∀ d ∈ ds', d < 32 := fun d hd => hdlt d (mem_trimZeros _ _ hd)
  have hd'ne : ds' ≠ [] := htzne
  have hmaplen : (ds'.map charOfDigit).length = ds'.length :=
    List.length_map _ _
  simp only [PyBoxCal.decimal_to_mpfr_base32, PyCommon.mpfr_to_base32,
    if_neg hv, hstr, hfe, hpop]
  by_cases hE1 : 0 < E
  · rw [if_pos hE1]
    by_cases hE2 : ((ds'.map charOfDigit).length : ℤ) ≤ E
    · rw [if_pos hE2]
      have hL'E : (ds'.length : ℤ) ≤ E := by
        rw [hmaplen] at hE2
        exact hE2
      by_cases hEn : ((n : ℕ) : ℤ) ≤ E
      · -- both strings are pure digit runs padded with zeros
        have hE2' : ((ds.map charOfDigit).length : ℤ) ≤ E := by
          rw [List.length_map, hlen]
          exact hEn
        have hlay : PyCommon.layoutB32 (ds.map charOfDigit) E =
            (ds ++ List.replicate (E - (n : ℤ)).toNat 0).map charOfDigit := by
          rw [PyCommon.layoutB32, if_pos hE1, if_pos hE2']
          rw [List.map_append, List.map_replicate, charOfDigit_zero,
            List.length_map, hlen]
        have hadlt : ∀ d ∈ ds ++ List.replicate (E - (n : ℤ)).toNat 0,
            d < 32 := by
          intro d hd
          rcases List.mem_append.mp hd with h2 | h2
          · exact hdlt d h2
          · rw [List.eq_of_mem_replicate h2]
            norm_num
        have hnodot : '.' ∉ sgn ++
            (ds ++ List.replicate (E - (n : ℤ)).toNat 0).map charOfDigit := by
          intro hmem
          rcases List.mem_append.mp hmem with h | h
          · rw [hsgn] at h
            split_ifs at h <;> simp at h
          · obtain ⟨d, hd, hdc⟩ := List.mem_map.mp h
            exact ((charOfDigit_spec d (hadlt d hd)).2.1) hdc
        rw [hlay, remove_trailing_zeros_no_dot _ hnodot]
        have hcount : z + (E - (n : ℤ)).toNat =
            (E - ((ds'.map charOfDigit).length : ℤ)).toNat := by
          rw [hmaplen]
          omega
        calc sgn ++ (ds ++ List.replicate (E - (n : ℤ)).toNat 0).map
              charOfDigit
            = sgn ++ (ds' ++ List.replicate (z + (E - (n : ℤ)).toNat) 0).map
                charOfDigit := by
              rw [List.replicate_add]
              conv_lhs => rw [hzd]
              rw [List.append_assoc]
          _ = sgn ++ ds'.map charOfDigit ++
              List.replicate ((E - ((ds'.map charOfDigit).length : ℤ)).toNat)
                '0' := by
              rw [hcount, List.map_append, List.map_replicate,
                charOfDigit_zero, List.append_assoc]
      · -- the fraction part exists but strips away entirely
        have hE2' : ¬ ((ds.map charOfDigit).length : ℤ) ≤ E := by
          rw [List.length_map, hlen]
          exact hEn
        set T : ℕ := E.toNat with hT
        have hTE : ((T : ℕ) : ℤ) = E := Int.toNat_of_nonneg (by omega)
        have hTn : T < n := by omega
        have hL'T : ds'.length ≤ T := by omega
        have hlay : PyCommon.layoutB32 (ds.map charOfDigit) E =
            (ds.take T).map charOfDigit ++ '.' ::
              (ds.drop T).map charOfDigit := by
          rw [PyCommon.layoutB32, if_pos hE1, if_neg hE2']
          rw [← List.map_take, ← List.map_drop]
        have hIlen : (ds.take T).length = T := by
          rw [List.length_take, hlen]
          omega
        have hIne : ds.take T ≠ [] := by
          intro hcon
          rw [hcon] at hIlen
          simp at hIlen
          omega
        have hIlt : ∀ d ∈ ds.take T, d < 32 :=
          fun d hd => hdlt d ((List.take_sublist T ds).mem hd)
        have hFlt : ∀ d ∈ ds.drop T, d < 32 :=
          fun d hd => hdlt d ((List.drop_sublist T ds).mem hd)
        have hdropz : ds.drop T = List.drop (T - ds'.length)
            (List.replicate z 0) := by
          conv_lhs => rw [hzd]
          rw [List.drop_append_eq_append_drop,
            List.drop_eq_nil_of_le hL'T, List.nil_append]
        have htF : trimZeros (ds.drop T) = [] := by
          rw [trimZeros_eq_nil_iff]
          intro d hd
          rw [hdropz] at hd
          exact List.eq_of_mem_replicate
            ((List.drop_sublist _ _).mem hd)
        have hAlast := getLast?_sign_map_ne_dot sgn (ds.take T) hIne hIlt
        have hstrip0 := remove_trailing_zeros_dot
          (sgn ++ (ds.take T).map charOfDigit) (ds.drop T) hFlt hAlast
        rw [List.append_assoc] at hstrip0
        rw [hlay, hstrip0, if_pos htF]
        have htake : ds.take T = ds' ++ List.replicate (T - ds'.length) 0 := by
          conv_lhs => rw [hzd]
          rw [List.take_append_eq_append_take,
            List.take_of_length_le hL'T, List.take_replicate,
            show (T - ds'.length) ⊓ z = T - ds'.length from
              min_eq_left (by omega)]
        have hcount : T - ds'.length =
            (E - ((ds'.map charOfDigit).length : ℤ)).toNat := by
          rw [hmaplen]
          omega
        calc sgn ++ (ds.take T).map charOfDigit
            = sgn ++ (ds' ++ List.replicate (T - ds'.length) 0).map
                charOfDigit := by rw [htake]
          _ = sgn ++ ds'.map charOfDigit ++
              List.replicate ((E - ((ds'.map charOfDigit).length : ℤ)).toNat)
                '0' := by
              rw [← hcount, List.map_append, List.map_replicate,
                charOfDigit_zero, List.append_assoc]
    · -- the radix point splits the trimmed digit run in both encoders
      rw [if_neg hE2]
      set T : ℕ := E.toNat with hT
      have hTE : ((T : ℕ) : ℤ) = E := Int.toNat_of_nonneg (by omega)
      have hTL' : T < ds'.length := by
        rw [hmaplen] at hE2
        omega
      have hTn : T < n := by omega
      have hE2' : ¬ ((ds.map charOfDigit).length : ℤ) ≤ E := by
        rw [List.length_map, hlen]
        omega
      have hlay : PyCommon.layoutB32 (ds.map charOfDigit) E =
          (ds.take T).map charOfDigit ++ '.' ::
            (ds.drop T).map charOfDigit := by
        rw [PyCommon.layoutB32, if_pos hE1, if_neg hE2']
        rw [← List.map_take, ← List.map_drop]
      have hIlen : (ds.take T).length = T := by
        rw [List.length_take, hlen]
        omega
      have hIne : ds.take T ≠ [] := by
        intro hcon
        rw [hcon] at hIlen
        simp at hIlen
        omega
      have hIlt : ∀ d ∈ ds.take T, d < 32 :=
        fun d hd => hdlt d ((List.take_sublist T ds).mem hd)
      have hFlt : ∀ d ∈ ds.drop T, d < 32 :=
        fun d hd => hdlt d ((List.drop_sublist T ds).mem hd)
      have hdropne : ds'.drop T ≠ [] := by
        intro hcon
        have := congrArg List.length hcon
        rw [List.length_drop] at this
        simp at this
        omega
      have hdlast : ∀ x, (ds'.drop T).getLast? = some x → x ≠ 0 := by
        intro x hx
        apply hlast
        rw [← List.take_append_drop T ds',
          getLast?_append_right _ _ hdropne]
        exact hx
      have hdropds : ds.drop T = ds'.drop T ++ List.replicate z 0 := by
        conv_lhs => rw [hzd]
        rw [List.drop_append_eq_append_drop,
          show T - ds'.length = 0 by omega, List.drop_zero]
      have htakeds : ds.take T = ds'.take T := by
        conv_lhs => rw [hzd]
        rw [List.take_append_eq_append_take,
          show T - ds'.length = 0 by omega, List.take_zero,
          List.append_nil]
      have htF : trimZeros (ds.drop T) = ds'.drop T := by
        rw [hdropds, trimZeros_append_replicate]
        exact trimZeros_eq_self _ hdropne hdlast
      have htFne : trimZeros (ds.drop T) ≠ [] := by
        rw [htF]
        exact hdropne
      have hAlast := getLast?_sign_map_ne_dot sgn (ds.take T) hIne hIlt
      have hstrip0 := remove_trailing_zeros_dot
        (sgn ++ (ds.take T).map charOfDigit) (ds.drop T) hFlt hAlast
      rw [List.append_assoc] at hstrip0
      rw [hlay, hstrip0, if_neg htFne, htF, htakeds]
      have hcond : (ds'.map charOfDigit).drop T ≠ [] ∧
          (ds'.map charOfDigit).drop T ≠ ['0'] := by
        constructor
        · rw [← List.map_drop]
          intro hcon
          exact hdropne (by
            have := congrArg List.length hcon
            rw [List.length_map] at this
            exact List.eq_nil_of_length_eq_zero this)
        · rw [← List.map_drop]
          intro hcon
          rcases hdd : ds'.drop T with _ | ⟨x, xs⟩
          · exact hdropne hdd
          · rw [hdd] at hcon
            rcases xs with _ | ⟨y, ys⟩
            · simp at hcon
              have hx32 : x < 32 :=
                hd'lt x ((List.drop_sublist T ds').mem (by rw [hdd]; simp))
              have hx0 : x = 0 :=
                ((charOfDigit_spec x hx32).2.2.2.2).mp hcon
              exact (hdlast x (by rw [hdd, hx0]; rfl)) hx0
            · simp at hcon
      rw [if_pos hcond]
      rw [List.map_take, List.map_drop, List.append_assoc]
  · -- nonpositive exponent: identical zero-padded fraction layouts
    rw [if_neg hE1]
    set k : ℕ := (-E).toNat with hk
    have hkE : ((k : ℕ) : ℤ) = -E := Int.toNat_of_nonneg (by omega)
    have hBlt : ∀ d ∈ List.replicate k 0 ++ ds, d < 32 := by
      intro d hd
      rcases List.mem_append.mp hd with h2 | h2
      · rw [List.eq_of_mem_replicate h2]
        norm_num
      · exact hdlt d h2
    have htzB : trimZeros (List.replicate k 0 ++ ds) ≠ [] := by
      rw [trimZeros_append_left _ _ htzne]
      intro hcon
      exact htzne (List.append_eq_nil.mp hcon).2
    have hlay : PyCommon.layoutB32 (ds.map charOfDigit) E =
        [0].map charOfDigit ++ '.' ::
          (List.replicate k 0 ++ ds).map charOfDigit := by
      rw [PyCommon.layoutB32, if_neg hE1]
      by_cases hE0 : E = 0
      · rw [if_pos hE0]
        have hk0 : k = 0 := by omega
        rw [hk0]
        simp
        decide
      · rw [if_neg hE0]
        rw [List.map_append, List.map_replicate, charOfDigit_zero]
        simp [hk]
        decide
    have hAlast := getLast?_sign_map_ne_dot sgn [0] (by simp)
      (by intro d hd; simp at hd; omega)
    have hstrip0 := remove_trailing_zeros_dot
      (sgn ++ [0].map charOfDigit) (List.replicate k 0 ++ ds) hBlt hAlast
    rw [List.append_assoc] at hstrip0
    rw [hlay, hstrip0, if_neg htzB, trimZeros_append_left _ _ htzne]
    rw [List.map_append, List.map_replicate, charOfDigit_zero]
    simp
    decide

/-! ## Claim C7: precision estimator postconditions -/

/-- C7: for all bound strings and resolutions on which
`calculate_precision` returns, the returned precision is a multiple of 64
and at least 64; when either resolution is at most 1 the result is
exactly the 64-bit floor (the degenerate branch runs no division by the
resolution), and likewise when the minimum step size over the parsed
bounds is exactly zero. -/
theorem C7_precision_postconditions
    (min_ca max_ca min_cb max_cb : String) (rca rcb : ℤ) (p : ℤ)
    (h : BoxCalc.calculate_precision min_ca max_ca min_cb max_cb rca rcb = some p) :
    p % 64 = 0 ∧ 64 ≤ p ∧
      ((rca ≤ 1 ∨ rcb ≤ 1) → p = 64) ∧
      (∀ qa qb qc qd : ℚ,
        PyCommon.parse_mpfr_base32 min_ca
          (BoxCalc.parsePrecision min_ca max_ca min_cb max_cb) = some qa →
        PyCommon.parse_mpfr_base32 max_ca
          (BoxCalc.parsePrecision min_ca max_ca min_cb max_cb) = some qb →
        PyCommon.parse_mpfr_base32 min_cb
          (BoxCalc.parsePrecision min_ca max_ca min_cb max_cb) = some qc →
        PyCommon.parse_mpfr_base32 max_cb
          (BoxCalc.parsePrecision min_ca max_ca min_cb max_cb) = some qd →
        min |(qb - qa) / (rca : ℚ)| |(qd - qc) / (rcb : ℚ)| = 0 → p = 64) := by
  rw [BoxCalc.calculate_precision] at h
  rcases hA : PyCommon.parse_mpfr_base32 min_ca
      (BoxCalc.parsePrecision min_ca max_ca min_cb max_cb) with _ | qa <;>
    rw [hA] at h
  · exact absurd h (by simp)
  rcases hB : PyCommon.parse_mpfr_base32 max_ca
      (BoxCalc.parsePrecision min_ca max_ca min_cb max_cb) with _ | qb <;>
    rw [hB] at h
  · exact absurd h (by simp)
  rcases hC : PyCommon.parse_mpfr_base32 min_cb
      (BoxCalc.parsePrecision min_ca max_ca min_cb max_cb) with _ | qc <;>
    rw [hC] at h
  · exact absurd h (by simp)
  rcases hD : PyCommon.parse_mpfr_base32 max_cb
      (BoxCalc.parsePrecision min_ca max_ca min_cb max_cb) with _ | qd <;>
    rw [hD] at h
  · exact absurd h (by simp)
  simp only at h
  split_ifs at h with hres hzero
  · -- nondegenerate resolutions, zero step
    have hp : p = 64 := by
      simpa using h.symm
    subst hp
    refine ⟨by norm_num, by norm_num, ?_, ?_⟩
    · intro _; rfl
    · intro _ _ _ _ _ _ _ _ _; rfl
  · -- nondegenerate resolutions, nonzero step
    have hp : p = max 64
        ((((ratClog 2 (1 / min |(qb - qa) / (rca : ℚ)| |(qd - qc) / (rcb : ℚ)|) + 32)
          + 63).fdiv 64) * 64) := by
      simpa using h.symm
    constructor
    · rcases max_choice 64
          ((((ratClog 2 (1 / min |(qb - qa) / (rca : ℚ)| |(qd - qc) / (rcb : ℚ)|) + 32)
            + 63).fdiv 64) * 64) with hmx | hmx <;>
        rw [hp, hmx]
      · norm_num
      · omega
    constructor
    · rw [hp]; exact le_max_left _ _
    constructor
    · intro hdeg
      exact absurd hres (by omega)
    · intro qa' qb' qc' qd' ha' hb' hc' hd' hmin
      obtain rfl := Option.some.inj ha'
      obtain rfl := Option.some.inj hb'
      obtain rfl := Option.some.inj hc'
      obtain rfl := Option.some.inj hd'
      exact absurd hmin hzero
  · -- degenerate resolution branch
    have hp : p = 64 := by simpa using h.symm
    subst hp
    refine ⟨by norm_num, by norm_num, fun _ => rfl, fun _ _ _ _ _ _ _ _ _ => rfl⟩

/-! ## Claim C2: canonical encode form

The claim asserts that `decimal_to_mpfr_base32` emits a fixed-width
normalized mantissa of `ceil(P * ln 2 / ln 32) + 1` digits together
with an explicit exponent.  The code does neither: it lays the digits
out in radix-point notation with no exponent marker and strips trailing
zeros, so the emitted digit count is usually far below the formula. -/

/-- C2 counterexample: encoding the decimal `0.25` at 128 bits.  The
claim requires a mantissa of exactly `ceil(128 * ln 2 / ln 32) + 1 = 27`
digits and an explicit exponent; the code emits `0.8`, which contains
no exponent marker and only 2 digit characters. -/
theorem C2_canonical_form_counterexample :
    PyCommon.decimal_to_mpfr_base32_ofStr "0.25" 128 = some ("0.8".toList) ∧
      ¬ '@' ∈ "0.8".toList ∧
      ("0.8".toList.filter (fun c => isDigit32 c)).length ≠ precDigits 128 := by
  refine ⟨?_, ?_, ?_⟩ <;> decide

/-- C2 amended: for a nonzero value, the encoder emits no exponent
marker at all (radix-point notation instead) and no sign character when
the value is positive; internally the digit generation does produce
exactly `ceil(P * ln 2 / ln 32) + 1 = ceil(P / 5) + 1` base-32 digits
with a nonzero leading digit, but trailing zeros are removed from the
laid-out string, so the emitted digit count is at most that number. -/
theorem C2_canonical_form_amended (v : ℚ) (P : ℕ) (hv : v ≠ 0) :
    ('@' ∉ PyCommon.decimal_to_mpfr_base32 v P) ∧
      (0 < v → '-' ∉ PyCommon.decimal_to_mpfr_base32 v P) ∧
      (mpfrGetStr32 v (precDigits P)).1.length = precDigits P ∧
      (∀ hd, (mpfrGetStr32 v (precDigits P)).1.head? = some hd → hd ≠ 0) ∧
      (∀ d ∈ (mpfrGetStr32 v (precDigits P)).1, d < 32) := by
  have hn : 1 ≤ precDigits P := by
    rw [precDigits]
    omega
  obtain ⟨hlen, hlt, hhd⟩ := mpfrGetStr32_digits_spec v (precDigits P) hv hn
  refine ⟨?_, ?_, hlen, hhd, hlt⟩
  · intro hat
    rcases mpfr_to_base32_chars v (precDigits P) hn '@' hat with h | h | h
    · exact absurd h (by decide)
    · exact absurd h (by decide)
    · exact absurd h.1 (by decide)
  · intro hpos hminus
    rcases mpfr_to_base32_chars v (precDigits P) hn '-' hminus with h | h | h
    · exact absurd h (by decide)
    · exact absurd h (by decide)
    · exact absurd h.2 (by linarith)

/-- Witness for C2 amended at the value `3/2` and 10 bits: the encoder
output carries no exponent marker and no sign, and the generated digit
block has `ceil(10 / 5) + 1 = 3` digits led by a nonzero digit. -/
theorem C2_canonical_form_witness :
    ('@' ∉ PyCommon.decimal_to_mpfr_base32 (3 / 2) 10) ∧
      (0 < (3 / 2 : ℚ) → '-' ∉ PyCommon.decimal_to_mpfr_base32 (3 / 2) 10) ∧
      (mpfrGetStr32 (3 / 2) (precDigits 10)).1.length = precDigits 10 ∧
      (∀ hd, (mpfrGetStr32 (3 / 2) (precDigits 10)).1.head? = some hd → hd ≠ 0) ∧
      (∀ d ∈ (mpfrGetStr32 (3 / 2) (precDigits 10)).1, d < 32) :=
  C2_canonical_form_amended (3 / 2) 10 (by norm_num)

/-! ## Claim C10 counterexample: the two encoders disagree -/

/-- C10 counterexample: converting the decimal string `0.1` at 4 bits.
The gmpy2-backed py_common converter first rounds 0.1 to the nearest
4-bit value 13/128 and prints `0.38`; the Decimal-based py_box_cal
converter truncates the exact digit expansion of 0.1 and prints `0.36`.
The two output strings differ, so the encoders do not agree on every
input, and their digit-generation rules (round-to-nearest versus
truncation) are not the same. -/
theorem C10_encoders_disagree_counterexample :
    PyCommon.convert_10_to_32 "0.1" 4 = some ("0.38".toList) ∧
      PyBoxCal.convert_10_to_32 "0.1" 4 = some ("0.36".toList) ∧
      ("0.38".toList : List Char) ≠ "0.36".toList := by
  refine ⟨?_, ?_, ?_⟩ <;> decide

/-- C10 (amended): the two in-repository converters do not share one
digit-generation and rounding rule, and their outputs differ.  The
gmpy2-backed converter prints the parsed value only after rounding it
to the nearest `P`-bit binary float: on `"0.1"` at 4 bits its output is
exactly the encoding of the rounded value `13/128 ≠ 1/10`, namely
`"0.38"`.  The pure-Decimal converter instead truncates base-32 digits
of the value itself: its output on the same input is the encoding of
`1/10`, namely `"0.36"`.  So the two outputs differ.  On a benign input
whose value the `P`-bit rounding fixes and whose digits are exact, such
as `"0.25"` at 4 bits, the two converters return the same string
(`"0.8"`).  Both converters are evaluated here on concrete inputs whose
intermediates are exact in the source's 100-significant-digit Decimal
context, where the exact-rational embedding coincides with the
program. -/
theorem C10_rounding_rules_differ :
    roundPrec 4 (1 / 10 : ℚ) = 13 / 128 ∧
    (13 / 128 : ℚ) ≠ (1 / 10 : ℚ) ∧
    PyCommon.convert_10_to_32 "0.1" 4 =
      some (PyCommon.decimal_to_mpfr_base32 (13 / 128 : ℚ) 4) ∧
    PyBoxCal.convert_10_to_32 "0.1" 4 =
      some (PyBoxCal.decimal_to_mpfr_base32 (1 / 10 : ℚ) (precDigits 4)) ∧
    PyCommon.convert_10_to_32 "0.1" 4 ≠ PyBoxCal.convert_10_to_32 "0.1" 4 ∧
    PyCommon.convert_10_to_32 "0.25" 4 = PyBoxCal.convert_10_to_32 "0.25" 4 := by
  refine ⟨?_, ?_, ?_, ?_, ?_, ?_⟩ <;> decide

/-! ## Claim C6: grid generation -/

/-- Samples never reach the exclusive upper bound: point `i < res` of a
nondegenerate axis lies strictly below `max`. -/
theorem sampleAt_ne_max (minv maxv : ℚ) (res i : ℕ)
    (h : minv < maxv) (hi : i < res) :
    BoxCalc.sampleAt minv maxv res i ≠ maxv := by
  rw [BoxCalc.sampleAt]
  split_ifs with hres
  · intro heq
    have hres0 : (0 : ℚ) < (res : ℚ) := by
      exact_mod_cast (by omega : 0 < res)
    have hiq : (i : ℚ) < (res : ℚ) := by exact_mod_cast hi
    have hlt : (maxv - minv) * i / res < maxv - minv := by
      rw [div_lt_iff₀ hres0]
      nlinarith [sub_pos.mpr h]
    have : minv + (maxv - minv) * i / res < maxv := by linarith
    rw [heq] at this
    exact absurd this (lt_irrefl _)
  · linarith

/-- C6: for a nondegenerate bounding box, the grid loop returns exactly
`R * S` points where `S = max(1, round(R * height / width))` (Python
banker's rounding), the grid coordinate pairs are pairwise distinct
members of `[0,R) x [0,S)`, each point's coordinates are the axis
samples at its grid coordinates - with the sample at `min + (max - min)
* i / res` whenever `res > 1` - and no sampled coordinate ever equals
the exclusive upper bound of its axis. -/
theorem C6_grid_generation (min_ca max_ca min_cb max_cb : ℚ) (R : ℕ)
    (hca : min_ca < max_ca) (hcb : min_cb < max_cb) :
    (BoxCalc.generate_grid_core min_ca max_ca min_cb max_cb R).2.1 = R ∧
    (BoxCalc.generate_grid_core min_ca max_ca min_cb max_cb R).2.2 =
      max 1 (BoxCalc.pyRound ((R : ℚ) *
        (|max_cb - min_cb| / |max_ca - min_ca|))).toNat ∧
    (BoxCalc.generate_grid_core min_ca max_ca min_cb max_cb R).1.length =
      R * (BoxCalc.generate_grid_core min_ca max_ca min_cb max_cb R).2.2 ∧
    ((BoxCalc.generate_grid_core min_ca max_ca min_cb max_cb R).1.map
      (fun e => (e.2.2.1, e.2.2.2))).Nodup ∧
    ∀ e ∈ (BoxCalc.generate_grid_core min_ca max_ca min_cb max_cb R).1,
      e.2.2.1 < R ∧
      e.2.2.2 < (BoxCalc.generate_grid_core min_ca max_ca min_cb max_cb R).2.2 ∧
      e.1 = BoxCalc.sampleAt min_ca max_ca R e.2.2.1 ∧
      e.2.1 = BoxCalc.sampleAt min_cb max_cb
        (BoxCalc.generate_grid_core min_ca max_ca min_cb max_cb R).2.2 e.2.2.2 ∧
      (1 < R → e.1 = min_ca + (max_ca - min_ca) * e.2.2.1 / R) ∧
      (1 < (BoxCalc.generate_grid_core min_ca max_ca min_cb max_cb R).2.2 →
        e.2.1 = min_cb + (max_cb - min_cb) * e.2.2.2 /
          (BoxCalc.generate_grid_core min_ca max_ca min_cb max_cb R).2.2) ∧
      e.1 ≠ max_ca ∧ e.2.1 ≠ max_cb := by
  have hw : (0 : ℚ) < |max_ca - min_ca| := by
    rw [abs_pos]
    intro hz
    have : max_ca = min_ca := by linarith [sub_eq_zero.mp hz]
    linarith
  set S := BoxCalc.resolutionCb min_ca max_ca min_cb max_cb R with hS
  have hSformula : S = max 1 (BoxCalc.pyRound ((R : ℚ) *
      (|max_cb - min_cb| / |max_ca - min_ca|))).toNat := by
    rw [hS, BoxCalc.resolutionCb, if_pos hw]
  have hsumconst : ∀ (L : List ℕ) (c : ℕ), (L.map (fun _ => c)).sum = L.length * c := by
    intro L c
    induction L with
    | nil => simp
    | cons a L ih =>
      simp [ih]
      ring
  refine ⟨rfl, hSformula, ?_, ?_, ?_⟩
  · simp only [BoxCalc.generate_grid_core]
    rw [List.length_flatMap]
    simp only [Function.comp_def, List.length_map, List.length_range]
    rw [hsumconst, List.length_range]
  · have heq : ((BoxCalc.generate_grid_core min_ca max_ca min_cb max_cb R).1.map
        (fun e => (e.2.2.1, e.2.2.2))) =
        (List.range R).flatMap (fun i => (List.range S).map (fun j => (i, j))) := by
      simp only [BoxCalc.generate_grid_core, List.map_flatMap, List.map_map]
      rfl
    rw [heq]
    have hprod : (List.range R).flatMap
        (fun i => (List.range S).map (fun j => (i, j))) =
        (List.range R).product (List.range S) := rfl
    rw [hprod]
    exact List.Nodup.product (List.nodup_range R) (List.nodup_range S)
  · intro e he
    simp only [BoxCalc.generate_grid_core, List.mem_flatMap, List.mem_map,
      List.mem_range] at he
    obtain ⟨i, hi, j, hj, rfl⟩ := he
    dsimp only
    refine ⟨hi, hj, rfl, rfl, ?_, ?_, ?_, ?_⟩
    · intro hR
      rw [BoxCalc.sampleAt, if_pos hR]
    · intro hS1
      have hS1' : 1 < BoxCalc.resolutionCb min_ca max_ca min_cb max_cb R := hS1
      rw [BoxCalc.sampleAt, if_pos hS1']
      rfl
    · exact sampleAt_ne_max _ _ _ _ hca hi
    · exact sampleAt_ne_max _ _ _ _ hcb hj

/-- Witness for C6 at the box `[-2, 2] x [-2, 2]` with real-axis
resolution 5: the derived imaginary resolution is 5 and the grid has 25
points. -/
theorem C6_grid_generation_witness :
    (BoxCalc.generate_grid_core (-2) 2 (-2) 2 5).2.1 = 5 ∧
    (BoxCalc.generate_grid_core (-2) 2 (-2) 2 5).2.2 =
      max 1 (BoxCalc.pyRound ((5 : ℚ) * (|(2 : ℚ) - -2| / |(2 : ℚ) - -2|))).toNat ∧
    (BoxCalc.generate_grid_core (-2) 2 (-2) 2 5).1.length =
      5 * (BoxCalc.generate_grid_core (-2) 2 (-2) 2 5).2.2 ∧
    ((BoxCalc.generate_grid_core (-2) 2 (-2) 2 5).1.map
      (fun e => (e.2.2.1, e.2.2.2))).Nodup ∧
    ∀ e ∈ (BoxCalc.generate_grid_core (-2) 2 (-2) 2 5).1,
      e.2.2.1 < 5 ∧
      e.2.2.2 < (BoxCalc.generate_grid_core (-2) 2 (-2) 2 5).2.2 ∧
      e.1 = BoxCalc.sampleAt (-2) 2 5 e.2.2.1 ∧
      e.2.1 = BoxCalc.sampleAt (-2) 2
        (BoxCalc.generate_grid_core (-2) 2 (-2) 2 5).2.2 e.2.2.2 ∧
      (1 < 5 → e.1 = -2 + (2 - -2) * e.2.2.1 / 5) ∧
      (1 < (BoxCalc.generate_grid_core (-2) 2 (-2) 2 5).2.2 →
        e.2.1 = -2 + (2 - -2) * e.2.2.2 /
          (BoxCalc.generate_grid_core (-2) 2 (-2) 2 5).2.2) ∧
      e.1 ≠ 2 ∧ e.2.1 ≠ 2 :=
  C6_grid_generation (-2) 2 (-2) 2 5 (by norm_num) (by norm_num)

/-! ## Claim C8: convergence loop termination -/

theorem mem_of_getElem_opt {α : Type} {l : List α} {i : ℕ} {a : α}
    (h : l[i]? = some a) : a ∈ l := by
  obtain ⟨hlt, heq⟩ := List.getElem?_eq_some.mp h
  exact heq ▸ List.getElem_mem hlt

theorem applyResult_length (pts : List BoxCalc.GridPoint)
    (r : BoxCalc.PoolResult) (pts2 : List BoxCalc.GridPoint)
    (h : BoxCalc.applyResult pts r = some pts2) :
    pts2.length = pts.length := by
  rw [BoxCalc.applyResult] at h
  rcases hget : pts[r.idx]? with _ | p <;> rw [hget] at h
  · cases h
  · obtain rfl := Option.some.inj h
    exact List.length_set pts r.idx _

theorem applyResult_nonneg (pts : List BoxCalc.GridPoint)
    (r : BoxCalc.PoolResult) (pts2 : List BoxCalc.GridPoint)
    (hr : 0 ≤ r.iterations)
    (hpts : ∀ pt ∈ pts, 0 ≤ pt.iterations)
    (h : BoxCalc.applyResult pts r = some pts2) :
    ∀ pt ∈ pts2, 0 ≤ pt.iterations := by
  rw [BoxCalc.applyResult] at h
  rcases hget : pts[r.idx]? with _ | p <;> rw [hget] at h
  · cases h
  · obtain rfl := Option.some.inj h
    intro pt hpt
    rcases List.mem_or_eq_of_mem_set hpt with hin | rfl
    · exact hpts pt hin
    · have hp : 0 ≤ p.iterations := hpts p (mem_of_getElem_opt hget)
      show 0 ≤ p.iterations + r.iterations
      omega

theorem applyBatch_some (batch : List BoxCalc.PoolResult) :
    ∀ pts : List BoxCalc.GridPoint, (∀ r ∈ batch, r.idx < pts.length) →
      ∃ pts2, BoxCalc.applyBatch pts batch = some pts2 ∧
        pts2.length = pts.length := by
  induction batch with
  | nil => exact fun pts _ => ⟨pts, rfl, rfl⟩
  | cons r batch ih =>
    intro pts h
    have hidx : r.idx < pts.length := h r (by simp)
    have hget : pts[r.idx]? = some pts[r.idx] := List.getElem?_eq_getElem hidx
    have har : ∃ ptsu, BoxCalc.applyResult pts r = some ptsu ∧
        ptsu.length = pts.length := by
      rw [BoxCalc.applyResult, hget]
      exact ⟨_, rfl, List.length_set pts r.idx _⟩
    obtain ⟨ptsu, har, hlenu⟩ := har
    obtain ⟨pts2, hrest, hlen⟩ := ih ptsu
      (fun r' hr' => by
        rw [hlenu]
        exact h r' (by simp [hr']))
    refine ⟨pts2, ?_, by rw [hlen, hlenu]⟩
    rw [BoxCalc.applyBatch, List.foldlM_cons, har]
    exact hrest

theorem applyBatch_nonneg (batch : List BoxCalc.PoolResult) :
    ∀ pts pts2 : List BoxCalc.GridPoint,
      (∀ r ∈ batch, 0 ≤ r.iterations) →
      (∀ pt ∈ pts, 0 ≤ pt.iterations) →
      BoxCalc.applyBatch pts batch = some pts2 →
      ∀ pt ∈ pts2, 0 ≤ pt.iterations := by
  induction batch with
  | nil =>
    intro pts pts2 _ hpts h
    obtain rfl := Option.some.inj h
    exact hpts
  | cons r batch ih =>
    intro pts pts2 hb hpts h
    rw [BoxCalc.applyBatch, List.foldlM_cons] at h
    rcases har : BoxCalc.applyResult pts r with _ | ptsm <;> rw [har] at h
    · cases h
    · exact ih ptsm pts2 (fun r' hr' => hb r' (by simp [hr']))
        (applyResult_nonneg pts r ptsm (hb r (by simp)) hpts har) h

theorem unescape_nonempty_pos (pts : List BoxCalc.GridPoint) (t M : ℤ)
    (hpts : ∀ pt ∈ pts, 0 ≤ pt.iterations)
    (h : (BoxCalc.unescapeIndices pts t M).isEmpty = false) : 1 ≤ t := by
  have hne : BoxCalc.unescapeIndices pts t M ≠ [] := by
    intro hcon
    rw [hcon] at h
    simp at h
  obtain ⟨i, hi⟩ := List.exists_mem_of_ne_nil _ hne
  rw [BoxCalc.unescapeIndices] at hi
  obtain ⟨_, hcond⟩ := List.mem_filter.mp hi
  rcases hget : pts[i]? with _ | pt <;> rw [hget] at hcond
  · simp at hcond
  · simp only [decide_eq_true_eq] at hcond
    have := hpts pt (mem_of_getElem_opt hget)
    omega

/-- Fuel sufficiency for the adaptive loop: from any state the loop
reaches a terminal exit within the fuel bound, because a continuing
round doubles a positive budget while staying at most `M`, so the gap
`M - t` strictly shrinks. -/
theorem runLoop_term_aux (M : ℤ) (L : ℕ)
    (oracle : ℕ → List BoxCalc.PoolResult)
    (hor : ∀ k, ∀ r ∈ oracle k, 0 ≤ r.iterations ∧ r.idx < L) :
    ∀ fuel k (pts : List BoxCalc.GridPoint) (t : ℤ), pts.length = L →
      (∀ pt ∈ pts, 0 ≤ pt.iterations) →
      ((t ≤ 0 ∧ 1 ≤ fuel) ∨ (0 < t ∧ (M - t).toNat + 2 ≤ fuel)) →
      ∃ final, BoxCalc.runLoop M oracle fuel k pts t = some final := by
  intro fuel
  induction fuel with
  | zero =>
    intro k pts t _ _ hcond
    rcases hcond with ⟨_, hf⟩ | ⟨_, hf⟩ <;> omega
  | succ fuel ih =>
    intro k pts t hlen hnn hcond
    rw [BoxCalc.runLoop]
    rcases hsel : (BoxCalc.unescapeIndices pts t M).isEmpty with hse | hse
    · -- nonempty working set
      have ht1 : 1 ≤ t := unescape_nonempty_pos pts t M hnn hsel
      obtain ⟨pts2, hab, hlen2⟩ := applyBatch_some (oracle k) pts
        (fun r hr => by rw [hlen]; exact (hor k r hr).2)
      have hnn2 : ∀ pt ∈ pts2, 0 ≤ pt.iterations :=
        applyBatch_nonneg (oracle k) pts pts2
          (fun r hr => (hor k r hr).1) hnn hab
      have hstep : BoxCalc.roundStep M pts t (oracle k) =
          (if BoxCalc.newlyEscaped (oracle k) = 0 then .done pts2
            else if ((BoxCalc.newlyEscaped (oracle k) : ℚ) /
                ((BoxCalc.unescapeIndices pts t M).length : ℚ)) * 100 < 1 then
              .done pts2
            else if M < t * 2 then .done pts2 else .next pts2 (t * 2)) := by
        simp [BoxCalc.roundStep, hsel, hab]
      rw [hstep]
      split_ifs with h1 h2 h3
      · exact ⟨pts2, rfl⟩
      · exact ⟨pts2, rfl⟩
      · exact ⟨pts2, rfl⟩
      · apply ih (k + 1) pts2 (t * 2) (hlen2.trans hlen) hnn2
        right
        refine ⟨by omega, ?_⟩
        rcases hcond with ⟨ht0, _⟩ | ⟨_, hf⟩
        · omega
        · omega
    · -- empty working set: the round reports done immediately
      have hstep : BoxCalc.roundStep M pts t (oracle k) = .done pts := by
        simp [BoxCalc.roundStep, hsel]
      rw [hstep]
      exact ⟨pts, rfl⟩

/-- C8: for any positive safety ceiling `M`, any starting budget, any
initial points with nonnegative cumulative counts, and any sequence of
round batches whose results carry nonnegative consumed-iteration counts
and valid indices, the adaptive loop reaches its terminal state within
`M.toNat + 2` rounds: the budget doubles every continuing round while
remaining at most the ceiling, so the rounds are bounded, and the
no-progress, diminishing-returns, empty-working-set and ceiling exits
are all terminal. -/
theorem C8_loop_termination (M : ℤ) (hM : 1 ≤ M)
    (oracle : ℕ → List BoxCalc.PoolResult)
    (pts : List BoxCalc.GridPoint) (t : ℤ)
    (hor : ∀ k, ∀ r ∈ oracle k, 0 ≤ r.iterations ∧ r.idx < pts.length)
    (hpts : ∀ pt ∈ pts, 0 ≤ pt.iterations) :
    ∃ final, BoxCalc.runLoop M oracle (M.toNat + 2) 0 pts t = some final := by
  apply runLoop_term_aux M pts.length oracle hor (M.toNat + 2) 0 pts t rfl hpts
  rcases le_or_lt t 0 with h | h
  · exact Or.inl ⟨h, by omega⟩
  · exact Or.inr ⟨h, by omega⟩

/-- Witness for C8 at the code's own ceiling of 10000000 iterations, a
one-point grid, starting budget 100, and a back-end that returns empty
batches. -/
theorem C8_loop_termination_witness :
    ∃ final, BoxCalc.runLoop BoxCalc.max_total_iterations (fun _ => [])
      (BoxCalc.max_total_iterations.toNat + 2) 0
      [BoxCalc.initPoint ['0'] ['0'] 0 0] 100 = some final :=
  C8_loop_termination BoxCalc.max_total_iterations (by decide) (fun _ => [])
    [BoxCalc.initPoint ['0'] ['0'] 0 0] 100 (by simp) (by decide)

/-! ## Claim C9: malformed decode input

The spec requires `decode` to fail on any symbol outside the base-32
alphabet.  The py_common decoder (which delegates to MPFR's reader)
does reject such symbols, but the py_box_cal decoder pushes every
non-decimal character through `ord(lower(c)) - ord(a-char) + 10` with no
range check: `"w"` (valid letters stop at `v`) is accepted as the digit
value 32, and `parse_mpfr_base32("w")` returns the Decimal 32 instead
of raising. -/

/-- C9: the failing input `"w"` evaluated on both decoders.  The
py_box_cal decoder returns the value 32 where the claim requires a
malformed-numeral failure; the py_common decoder rejects the same
input.  The py_box_cal decoders likewise accept `"$"` as the negative
digit value -51. -/
theorem C9_malformed_input_code_bug :
    PyBoxCal.parse_mpfr_base32 "w" = some 32 ∧
      PyBoxCal.parse_mpfr_base32 "$" = some (-51) ∧
      PyCommon.parse_mpfr_base32 "w" 64 = none := by
  refine ⟨?_, ?_, ?_⟩ <;> decide

/-! ## Claim C5: result application is not idempotent -/

/-- C5 counterexample: a one-point grid state and a result consuming 5
iterations.  Applying the result once yields a cumulative count of 5;
applying the identical result a second time is neither rejected nor a
no-op: it returns a changed state whose cumulative count is 10, double
counting the 5 consumed iterations. -/
theorem C5_duplicate_application_counterexample :
    (BoxCalc.applyResult [BoxCalc.initPoint ['1'] ['2'] 0 0]
        ⟨0, ['Y'], ['3'], ['4'], 5⟩).map
        (fun pts => pts.map BoxCalc.GridPoint.iterations) = some [5] ∧
      ((BoxCalc.applyResult [BoxCalc.initPoint ['1'] ['2'] 0 0]
          ⟨0, ['Y'], ['3'], ['4'], 5⟩).bind
        (fun pts => BoxCalc.applyResult pts ⟨0, ['Y'], ['3'], ['4'], 5⟩)).map
        (fun pts => pts.map BoxCalc.GridPoint.iterations) = some [10] := by
  constructor <;> decide

/-- C5 amended: applying the same `WorkerResult` twice to a point adds
its consumed iterations twice.  The update at lines 382-395 of
box_calculator.py has no duplicate guard: every delivery with a valid
index succeeds, overwrites the escape flag and final iterate, and adds
`res.iterations` to the cumulative count, so a duplicate delivery
double-counts. -/
theorem C5_duplicate_application_double_counts
    (pts : List BoxCalc.GridPoint) (res : BoxCalc.PoolResult)
    (p : BoxCalc.GridPoint) (h : pts[res.idx]? = some p) :
    ∃ pts1 pts2 p2,
      BoxCalc.applyResult pts res = some pts1 ∧
      BoxCalc.applyResult pts1 res = some pts2 ∧
      pts2[res.idx]? = some p2 ∧
      p2.iterations = p.iterations + 2 * res.iterations := by
  have hlen : res.idx < pts.length := (List.getElem?_eq_some.mp h).1
  let P1 : BoxCalc.GridPoint := { p with
    escaped := res.escaped
    final_za := some res.final_za
    final_zb := some res.final_zb
    iterations := p.iterations + res.iterations
    za := res.final_za
    zb := res.final_zb }
  let P2 : BoxCalc.GridPoint := { P1 with
    escaped := res.escaped
    final_za := some res.final_za
    final_zb := some res.final_zb
    iterations := P1.iterations + res.iterations
    za := res.final_za
    zb := res.final_zb }
  refine ⟨pts.set res.idx P1, (pts.set res.idx P1).set res.idx P2, P2,
    ?_, ?_, ?_, ?_⟩
  · rw [BoxCalc.applyResult, h]
  · rw [BoxCalc.applyResult,
      List.getElem?_set_eq_of_lt _ (by simpa using hlen)]
  · exact List.getElem?_set_eq_of_lt _ (by simpa using hlen)
  · show P1.iterations + res.iterations = p.iterations + 2 * res.iterations
    show p.iterations + res.iterations + res.iterations =
      p.iterations + 2 * res.iterations
    ring

/-- Witness for C5 on a concrete one-point state and a result consuming
5 iterations: double application yields cumulative count 0 + 2 * 5. -/
theorem C5_duplicate_application_witness :
    ∃ pts1 pts2 p2,
      BoxCalc.applyResult [BoxCalc.initPoint ['1'] ['2'] 0 0]
        ⟨0, ['Y'], ['3'], ['4'], 5⟩ = some pts1 ∧
      BoxCalc.applyResult pts1 ⟨0, ['Y'], ['3'], ['4'], 5⟩ = some pts2 ∧
      pts2[(⟨0, ['Y'], ['3'], ['4'], 5⟩ : BoxCalc.PoolResult).idx]? = some p2 ∧
      p2.iterations = (BoxCalc.initPoint ['1'] ['2'] 0 0).iterations +
        2 * (⟨0, ['Y'], ['3'], ['4'], 5⟩ : BoxCalc.PoolResult).iterations :=
  C5_duplicate_application_double_counts _ _ _ (by decide)

/-! ## Claim C3: protocol errors are swallowed by the pool, not surfaced -/

/-- C3 counterexample: on the malformed response line `BADLINE`,
`MandelbrotWorker.calculate` raises `ValueError` (`none`), but the
pool's dispatch thread catches the exception, logs it, marks the task
done and carries on: its outcome is `swallowed` - the task is dropped
and no error reaches the pool's caller, contradicting the claim that
the pool surfaces the protocol error and aborts the run. -/
theorem C3_pool_swallows_counterexample :
    BoxCalc.workerParseResponse "BADLINE" = none ∧
      BoxCalc.poolHandleResponse 7 "BADLINE" = BoxCalc.PoolOutcome.swallowed := by
  constructor <;> decide

/-- C3 amended: for every response line that fails the fixed-field check
(`CAL` plus exactly four fields, the last an integer), `calculate`
raises `ValueError`, and the dispatch thread's `except Exception`
handler swallows it: the task produces no result and nothing
propagates to the pool's caller. -/
theorem C3_worker_raises_pool_swallows (response : String)
    (hbad : BoxCalc.wellFormedResponse response = false) :
    BoxCalc.workerParseResponse response = none ∧
      ∀ idx, BoxCalc.poolHandleResponse idx response =
        BoxCalc.PoolOutcome.swallowed := by
  have hparse : BoxCalc.workerParseResponse response = none := by
    rw [BoxCalc.workerParseResponse]
    rw [BoxCalc.wellFormedResponse] at hbad
    split
    next p0 p1 p2 p3 p4 heq =>
      rw [heq] at hbad
      split_ifs with hcal
      · rcases hint : Mandel.pyInt p4 with _ | n
        · rfl
        · exfalso
          rw [hcal] at hbad
          simp [hint] at hbad
      · rfl
    next => rfl
  refine ⟨hparse, fun idx => ?_⟩
  rw [BoxCalc.poolHandleResponse, hparse]

/-- Witness for C3 on the concrete malformed line `"EXIT now"`. -/
theorem C3_worker_raises_pool_swallows_witness :
    BoxCalc.workerParseResponse "EXIT now" = none ∧
      ∀ idx, BoxCalc.poolHandleResponse idx "EXIT now" =
        BoxCalc.PoolOutcome.swallowed :=
  C3_worker_raises_pool_swallows "EXIT now" (by decide)

/-! ## Claim C4: adaptive round budgets -/

/-- C4: every task built by the submission loop belongs to a selected
point (not escaped, cumulative count below the ceiling and the round
target) and carries the round-local budget
`target - point.cumulative_iterations`, which is positive; and applying
a result adds the consumed iterations to the point's cumulative count
rather than overwriting it.  Together these say no already-performed
iteration is resubmitted: the backend is asked only for the missing
difference, on top of the carried-forward iterate. -/
theorem C4_adaptive_round_budget (pts : List BoxCalc.GridPoint)
    (t M precision : ℤ) (er : List Char) :
    (∀ task ∈ BoxCalc.mkTasks pts t M precision er,
      ∃ pt, pts[task.idx]? = some pt ∧
        pt.escaped = ['N'] ∧ pt.iterations < M ∧ pt.iterations < t ∧
        task.max_iterations = t - pt.iterations ∧ 0 < task.max_iterations) ∧
    (∀ res : BoxCalc.PoolResult, ∀ pt, pts[res.idx]? = some pt →
      ∃ pts2 pt2, BoxCalc.applyResult pts res = some pts2 ∧
        pts2[res.idx]? = some pt2 ∧
        pt2.iterations = pt.iterations + res.iterations) := by
  constructor
  · intro task htask
    rw [BoxCalc.mkTasks] at htask
    obtain ⟨idx, hidx, hf⟩ := List.mem_filterMap.mp htask
    rw [BoxCalc.unescapeIndices] at hidx
    obtain ⟨hrange, hcond⟩ := List.mem_filter.mp hidx
    rcases hget : pts[idx]? with _ | pt
    · rw [hget] at hcond
      simp at hcond
    · rw [hget] at hcond hf
      simp only [decide_eq_true_eq] at hcond
      obtain ⟨hesc, hM, ht⟩ := hcond
      refine ⟨pt, ?_, hesc, hM, ht, ?_, ?_⟩
      · simp only at hf
        split_ifs at hf with hpos
        obtain rfl := Option.some.inj hf
        exact hget
      · simp only at hf
        split_ifs at hf with hpos
        obtain rfl := Option.some.inj hf
        rfl
      · simp only at hf
        split_ifs at hf with hpos
        obtain rfl := Option.some.inj hf
        simp only
        omega
  · intro res pt hres
    have hlen : res.idx < pts.length := (List.getElem?_eq_some.mp hres).1
    let P : BoxCalc.GridPoint := { pt with
      escaped := res.escaped
      final_za := some res.final_za
      final_zb := some res.final_zb
      iterations := pt.iterations + res.iterations
      za := res.final_za
      zb := res.final_zb }
    refine ⟨pts.set res.idx P, P, ?_,
      List.getElem?_set_eq_of_lt _ (by simpa using hlen), rfl⟩
    rw [BoxCalc.applyResult, hres]

/-- Witness for C4 on a concrete two-point state with target budget 100:
the selected point at index 1 (40 cumulative iterations) yields a task
carrying 60 round-local iterations, and applying a 60-iteration result
brings its cumulative count to 100. -/
theorem C4_adaptive_round_budget_witness :
    (∀ task ∈ BoxCalc.mkTasks
        [{ BoxCalc.initPoint ['1'] ['2'] 0 0 with escaped := ['Y'] },
         { BoxCalc.initPoint ['1'] ['3'] 0 1 with iterations := 40 }]
        100 10000000 64 ['2'],
      ∃ pt, [{ BoxCalc.initPoint ['1'] ['2'] 0 0 with escaped := ['Y'] },
         { BoxCalc.initPoint ['1'] ['3'] 0 1 with iterations := 40 }][task.idx]? = some pt ∧
        pt.escaped = ['N'] ∧ pt.iterations < 10000000 ∧ pt.iterations < 100 ∧
        task.max_iterations = 100 - pt.iterations ∧ 0 < task.max_iterations) ∧
    (∀ res : BoxCalc.PoolResult, ∀ pt,
      [{ BoxCalc.initPoint ['1'] ['2'] 0 0 with escaped := ['Y'] },
       { BoxCalc.initPoint ['1'] ['3'] 0 1 with iterations := 40 }][res.idx]? = some pt →
      ∃ pts2 pt2, BoxCalc.applyResult
          [{ BoxCalc.initPoint ['1'] ['2'] 0 0 with escaped := ['Y'] },
           { BoxCalc.initPoint ['1'] ['3'] 0 1 with iterations := 40 }] res = some pts2 ∧
        pts2[res.idx]? = some pt2 ∧
        pt2.iterations = pt.iterations + res.iterations) :=
  C4_adaptive_round_budget _ 100 10000000 64 ['2']

/-- Witness for C7 at the bounding box `[-2, 2] x [-2, 2]` with a
100 x 100 grid: the estimator returns 64 bits. -/
theorem C7_precision_witness :
    (64 : ℤ) % 64 = 0 ∧ (64 : ℤ) ≤ 64 ∧
      (((100 : ℤ) ≤ 1 ∨ (100 : ℤ) ≤ 1) → (64 : ℤ) = 64) ∧
      (∀ qa qb qc qd : ℚ,
        PyCommon.parse_mpfr_base32 "-2" (BoxCalc.parsePrecision "-2" "2" "-2" "2") = some qa →
        PyCommon.parse_mpfr_base32 "2" (BoxCalc.parsePrecision "-2" "2" "-2" "2") = some qb →
        PyCommon.parse_mpfr_base32 "-2" (BoxCalc.parsePrecision "-2" "2" "-2" "2") = some qc →
        PyCommon.parse_mpfr_base32 "2" (BoxCalc.parsePrecision "-2" "2" "-2" "2") = some qd →
        min |(qb - qa) / ((100 : ℤ) : ℚ)| |(qd - qc) / ((100 : ℤ) : ℚ)| = 0 →
          (64 : ℤ) = 64) :=
  C7_precision_postconditions "-2" "2" "-2" "2" 100 100 64 (by decide)

end Mandel
